import Mathlib

/-!
Verification development for the translator_po repository.

The repository translates gettext catalogs.  Its own logic (as opposed to the
external libraries polib, deep-translator, hashlib, sqlite3) consists of:

* placeholder masking/restoring around the external translation call
  (`_translate_entry` in src/translator_po/po_file_processor.py and
  `translate_entry` in the legacy translator_po.py, lines 61-88 resp. 133-148);
* chunking of catalog entries across workers (`translate_po_file`,
  `split_po_file`);
* an sqlite-backed key-value cache (`cache_handler.py`);
* file/folder orchestration (`main.py`, `po_file_processor.py`).

Strings are modelled as `List Char`.  Python's `str.replace` (replace all
non-overlapping occurrences, scanning left to right) is `replaceAll` below,
and the regex `%\(\w+\)s|%\w|%%` used by the masking code is modelled by
`matchAt`/`findall` (with `\w` taken as ASCII letters, digits and underscore,
which covers the standard placeholder alphabet).
-/

set_option autoImplicit false
set_option maxRecDepth 40000

namespace TranslatorPo

/-- Shorthand for the string model used throughout: a list of characters. -/
abbrev Str := List Char

/-- Test whether `p` is a leading segment of `s` (Python `s.startswith(p)`). -/
def hasPre : Str → Str → Bool
  | [], _ => true
  | _ :: _, [] => false
  | a :: p, b :: s => a = b && hasPre p s

/-- Test whether `p` occurs as a contiguous substring of `s` (Python `p in s`). -/
def occursIn (p : Str) : Str → Bool
  | [] => hasPre p []
  | c :: s => hasPre p (c :: s) || occursIn p s

/-- Fuel-driven worker for `replaceAll`; the fuel is an upper bound on the
length of the remaining string, so it never runs out in `replaceAll`. -/
def replaceGo (pat rep : Str) : Nat → Str → Str
  | _, [] => []
  | 0, s => s
  | fuel + 1, c :: s =>
    if pat ≠ [] ∧ hasPre pat (c :: s) = true then
      rep ++ replaceGo pat rep fuel (List.drop pat.length (c :: s))
    else
      c :: replaceGo pat rep fuel s

/-- Python `s.replace(pat, rep)`: replace every non-overlapping occurrence of
`pat` in `s` by `rep`, scanning left to right. -/
def replaceAll (pat rep s : Str) : Str := replaceGo pat rep s.length s

/-- ASCII model of the regex class `\w`: letters, digits and underscore. -/
def wordChar (c : Char) : Bool := c.isAlpha || c.isDigit || c = '_'

/-- Split off the maximal leading run of `\w` characters. -/
def takeWordRun : Str → Str × Str
  | [] => ([], [])
  | c :: s =>
    if wordChar c then
      ((c :: (takeWordRun s).1), (takeWordRun s).2)
    else
      ([], c :: s)

/-- After `%(` and a maximal word run `run`, the first alternative
`%\(\w+\)s` matches iff the run is nonempty and the remainder starts `)s`. -/
def matchParen (run u : Str) : Option Str :=
  if run ≠ [] ∧ hasPre [')', 's'] u = true then
    some (('%' :: '(' :: run) ++ [')', 's'])
  else none

/-- Match the regex `%\(\w+\)s|%\w|%%` at the start of `s`, returning the
matched text (Python `re` tries the alternatives left to right; after `%(`
the greedy `\w+` takes the maximal word run, and since `)` is not a word
character no backtracking can produce a different match). -/
def matchAt : Str → Option Str
  | a :: b :: t =>
    if a = '%' then
      if b = '(' then matchParen (takeWordRun t).1 (takeWordRun t).2
      else if wordChar b then some [a, b]
      else if b = '%' then some [a, b]
      else none
    else none
  | _ => none

/-- Fuel-driven scanner behind `scanPO`; at each position it either consumes a
regex match or one plain character, so fuel `s.length` always suffices. -/
def scanGo : Nat → Str → List (Str × Str) × Str
  | _, [] => ([], [])
  | 0, s => ([], s)
  | fuel + 1, c :: s =>
    match matchAt (c :: s) with
    | some p =>
      (([], p) :: (scanGo fuel (List.drop p.length (c :: s))).1,
        (scanGo fuel (List.drop p.length (c :: s))).2)
    | none =>
      match scanGo fuel s with
      | ([], g) => ([], c :: g)
      | ((g, q) :: ps, gl) => ((c :: g, q) :: ps, gl)

/-- Decompose `s` into the sequence of (gap, match) pairs produced by scanning
for the placeholder regex left to right, plus the trailing gap.  `re.findall`
returns exactly the matches of this scan, in order. -/
def scanPO (s : Str) : List (Str × Str) × Str := scanGo s.length s

/-- Model of `re.findall(r'%\(\w+\)s|%\w|%%', s)`. -/
def findall (s : Str) : List Str := (scanPO s).1.map (fun gq => gq.2)

/-- The marker string `f'PLACEHOLDER_{i}'` used by the masking loop. -/
def marker (i : Nat) : Str := "PLACEHOLDER_".data ++ Nat.toDigits 10 i

/-- Python `enumerate` starting at `i`. -/
def enumIdx {α : Type} : Nat → List α → List (Nat × α)
  | _, [] => []
  | i, x :: t => (i, x) :: enumIdx (i + 1) t

/-- The masking loop of `_translate_entry`: for each `(i, placeholder)` of
`enumerate(placeholders)`, `temp = temp.replace(placeholder, marker i)`. -/
def maskFold : List (Nat × Str) → Str → Str
  | [], t => t
  | ip :: rest, t => maskFold rest (replaceAll ip.2 (marker ip.1) t)

/-- The masked `temp_msgid` computed from `entry.msgid` by `_translate_entry`. -/
def maskMsgid (m : Str) : Str := maskFold (enumIdx 0 (findall m)) m

/-- The `placeholder_map` dict of `_translate_entry`: marker index `i` maps to
`placeholders[i]` (marker keys are pairwise distinct, so the insertion-ordered
dict holds exactly the enumerated placeholder list). -/
def placeholderMap (m : Str) : List (Nat × Str) := enumIdx 0 (findall m)

/-- The restore loop of `_translate_entry`: for each `(marker, placeholder)` of
`placeholder_map.items()` in insertion order,
`translated = translated.replace(marker, placeholder)`. -/
def restoreFold : List (Nat × Str) → Str → Str
  | [], t => t
  | ip :: rest, t => restoreFold rest (replaceAll (marker ip.1) ip.2 t)

/-- Restore placeholders in translated text `t` using map `mp`. -/
def restoreText (t : Str) (mp : List (Nat × Str)) : Str := restoreFold mp t

/-- First index of `x` in `l` (`l.length` when absent).  The masking loop
replaces every occurrence of a repeated placeholder at its first enumeration
index, so this is the marker index actually attached to a placeholder. -/
def firstIdx (x : Str) : List Str → Nat
  | [] => 0
  | y :: t => if y = x then 0 else firstIdx x t + 1

/-- Reassemble a scan decomposition, rendering each match through `view`. -/
def flatPairs (view : Str → Str) : List (Str × Str) → Str → Str
  | [], gl => gl
  | (g, q) :: rest, gl => g ++ view q ++ flatPairs view rest gl

/-- How a match `q` reads after the first `i` masking steps have run: already
replaced by its marker if its first enumeration index is below `i`. -/
def maskView (P : List Str) (i : Nat) (q : Str) : Str :=
  if firstIdx q P < i then marker (firstIdx q P) else q

/-- How a match `q` reads after the first `i` restore steps have run: back to
its original text if its first enumeration index is below `i`. -/
def restView (P : List Str) (i : Nat) (q : Str) : Str :=
  if firstIdx q P < i then q else marker (firstIdx q P)

/-- Flatten a list of flagged string pieces. -/
def flatP : List (Bool × Str) → Str
  | [] => []
  | bx :: r => bx.2 ++ flatP r

/-- Replace the content of every flagged piece by `r`. -/
def subst (r : Str) : List (Bool × Str) → List (Bool × Str)
  | [] => []
  | bx :: rest => (bx.1, if bx.1 then r else bx.2) :: subst r rest

/-- Separation of pattern `p` along a flagged piece list: flagged pieces carry
exactly `p`, and no occurrence of `p` starts anywhere inside an unflagged
piece (relative to the whole remaining text). -/
def Sep (p : Str) : List (Bool × Str) → Prop
  | [] => True
  | (true, x) :: rest => x = p ∧ Sep p rest
  | (false, x) :: rest =>
    (∀ off, off < x.length → hasPre p (List.drop off x ++ flatP rest) = false) ∧ Sep p rest

/-- Turn a scan decomposition into flagged pieces: gaps are unflagged, and a
match is flagged exactly when `flagOf` holds of it. -/
def toPieces (view : Str → Str) (flagOf : Str → Bool) : List (Str × Str) → Str → List (Bool × Str)
  | [], gl => [(false, gl)]
  | (g, q) :: rest, gl => (false, g) :: (flagOf q, view q) :: toPieces view flagOf rest gl

/-! ### Catalog entries

The gettext catalog itself is parsed and serialized by the external polib
library; entries are modelled by their fields used in this repository
(plural forms are not modelled). -/

/-- Model of a polib `POEntry`. -/
structure POEntry where
  msgid : Str
  msgstr : Str
  fuzzy : Bool
  obsolete : Bool
deriving DecidableEq, Repr

/-- polib `POEntry.translated()` for a non-obsolete entry: the msgstr is
nonempty. -/
def translatedE (e : POEntry) : Bool := decide (e.msgstr ≠ [])

/-- polib `POFile.untranslated_entries()`: entries that are not translated,
not obsolete and not fuzzy. -/
def untranslated_entries (po : List POEntry) : List POEntry :=
  po.filter (fun e => !translatedE e && !e.obsolete && !e.fuzzy)

/-! ### Chunking -/

/-- Fuel-driven worker behind `sliceChunks`; fuel `entries.length` always
suffices when the chunk size is at least 1. -/
def chunksGo {α : Type} (cs : Nat) : Nat → List α → List (List α)
  | _, [] => []
  | 0, l => [l]
  | fuel + 1, x :: l => ((x :: l).take cs) :: chunksGo cs fuel ((x :: l).drop cs)

/-- The chunking `[entries[i : i + cs] for i in range(0, len(entries), cs)]`
shared by `split_po_file` and `translate_po_file`. -/
def sliceChunks {α : Type} (entries : List α) (cs : Nat) : List (List α) :=
  chunksGo cs entries.length entries

/-- `split_po_file` of po_file_splitter.py: take the untranslated entries of
the parsed file, chunk them with chunk size `max(1, len(entries) // num_split)`
and save each chunk as one numbered output file.  The result lists the entry
lists of the output files in order. -/
def split_po_file (po : List POEntry) (num_split : Nat) : List (List POEntry) :=
  sliceChunks (untranslated_entries po)
    (max 1 ((untranslated_entries po).length / num_split))

/-- The chunk list built by `translate_po_file` of po_file_processor.py:
untranslated entries in chunks of `max(1, len(entries) // jobs)`. -/
def poChunks (po : List POEntry) (jobs : Nat) : List (List POEntry) :=
  sliceChunks (untranslated_entries po)
    (max 1 ((untranslated_entries po).length / jobs))

/-! ### The translation cache (cache_handler.py)

The sqlite table is modelled as an association list keyed by the TEXT PRIMARY
KEY `id`; the external hashlib md5 call inside `_generate_cache_key` is
abstracted as the parameter `hash`, and `os.path.getsize` as the parameter
`sz` (the byte layout of an sqlite file is outside the model). -/

/-- One row of the `translations` table. -/
structure CacheRecord where
  source_lang : Str
  target_lang : Str
  translator : Str
  source_text : Str
  translated_text : Str
deriving DecidableEq, Repr

/-- The `translations` table of one cache file, keyed by `id`. -/
abbrev CacheTable := List (Str × CacheRecord)

/-- `_generate_cache_key`: the digest of
`f"{source_lang}:{target_lang}:{translator}:{source_text}"`. -/
def generateCacheKey (hash : Str → Str) (source_lang target_lang translator source_text : Str) : Str :=
  hash (source_lang ++ ":".data ++ target_lang ++ ":".data ++ translator ++ ":".data ++ source_text)

/-- `get_translation`: `SELECT translated_text FROM translations WHERE id = ?`
with the key of the four request fields; `fetchone` of the first matching row. -/
def get_translation (hash : Str → Str) (tbl : CacheTable) (sl tl tr st : Str) : Option Str :=
  (tbl.find? (fun row => row.1 == generateCacheKey hash sl tl tr st)).map
    (fun row => row.2.translated_text)

/-- `save_translation` on the current table: `INSERT OR REPLACE` deletes any
row with the same primary key and inserts the new row. -/
def save_translation_table (hash : Str → Str) (tbl : CacheTable) (sl tl tr st tt : Str) : CacheTable :=
  tbl.filter (fun row => !(row.1 == generateCacheKey hash sl tl tr st))
    ++ [(generateCacheKey hash sl tl tr st,
      { source_lang := sl, target_lang := tl, translator := tr, source_text := st,
        translated_text := tt })]

/-- `MAX_CACHE_SIZE` of cache_handler.py (the inline comment in the source
says 4MB but the constant is `1 * 1024 * 1024`). -/
def MAX_CACHE_SIZE : Nat := 1 * 1024 * 1024

/-- The cache directory: the numbered `cache_<i>.db` files in index order.
`_open_new_cache_file` always selects the highest index, so the current file
is the last one. -/
structure CacheStore where
  files : List (Nat × CacheTable)
deriving DecidableEq, Repr

/-- The table of the current (= last) cache file. -/
def currentTable (st : CacheStore) : CacheTable :=
  ((st.files.getLast?).map (fun f => f.2)).getD []

/-- `save_translation` including rotation: upsert into the current file, then
if that file's size has reached `MAX_CACHE_SIZE`, subsequent operations use a
fresh file with the next index (`_open_new_cache_file`). -/
def save_translation_store (hash : Str → Str) (sz : CacheTable → Nat) (st : CacheStore)
    (sl tl tr stx tt : Str) : CacheStore :=
  match st.files.getLast? with
  | none => st
  | some (idx, tbl) =>
    if MAX_CACHE_SIZE ≤ sz (save_translation_table hash tbl sl tl tr stx tt) then
      { files := st.files.dropLast ++ [(idx, save_translation_table hash tbl sl tl tr stx tt),
        (idx + 1, [])] }
    else
      { files := st.files.dropLast ++ [(idx, save_translation_table hash tbl sl tl tr stx tt)] }

/-! ### Per-entry translation -/

/-- The configuration fields used by the per-entry translation step
(`max_msgid_length` defaults to 300 via `config.get`). -/
structure Config where
  source_lang : Str
  target_lang : Str
  translator : Str
  max_msgid_length : Nat
deriving Repr

/-- Python truthiness of `if cached_translation:`: `None` and the empty
string are both falsy, so an empty cached string falls through to a fresh
translation. -/
def cachedTruthy (o : Option Str) : Option Str :=
  match o with
  | some [] => none
  | o => o

/-- `_translate_entry` of po_file_processor.py.  The external translator is a
function that may fail (`none` models a raised exception: the source then
sets `translation_error_flag` and re-raises, so the result is `none`);
otherwise the updated entry and cache table are returned.  Entries whose
msgid exceeds the configured maximum length are returned untouched before
anything else happens. -/
def translate_entry_pkg (cfg : Config) (translator : Str → Option Str)
    (cache : Option CacheTable) (hash : Str → Str) (e : POEntry) :
    Option (POEntry × Option CacheTable) :=
  if cfg.max_msgid_length < e.msgid.length then some (e, cache)
  else
    match cache with
    | some tbl =>
      match cachedTruthy (get_translation hash tbl cfg.source_lang cfg.target_lang
          cfg.translator (maskMsgid e.msgid)) with
      | some t =>
        some ({ e with msgstr := restoreText t (placeholderMap e.msgid) }, some tbl)
      | none =>
        match translator (maskMsgid e.msgid) with
        | none => none
        | some t =>
          some ({ e with msgstr := restoreText t (placeholderMap e.msgid) },
            some (save_translation_table hash tbl cfg.source_lang cfg.target_lang
              cfg.translator (maskMsgid e.msgid) t))
    | none =>
      match translator (maskMsgid e.msgid) with
      | none => none
      | some t => some ({ e with msgstr := restoreText t (placeholderMap e.msgid) }, none)

/-- `translate_entry` of the legacy translator_po.py: the same masking and
restoring, but any exception is caught and `(entry, None)` returned; the
over-length guard also returns `(entry, None)`. -/
def translate_entry_legacy (max_msgid_length : Nat) (translator : Str → Option Str)
    (e : POEntry) : POEntry × Option Str :=
  if max_msgid_length < e.msgid.length then (e, none)
  else
    match translator (maskMsgid e.msgid) with
    | none => (e, none)
    | some t => (e, some (restoreText t (placeholderMap e.msgid)))

/-- The fan-in of the legacy `translate_po_file`: entries with a nonempty
msgid are submitted; where a translation came back it is written to the entry
(`entry.msgstr = translation`), where it did not the entry stays as it was,
and all other entries are still processed. -/
def legacy_translate_po_file (max_msgid_length : Nat) (translator : Str → Option Str)
    (po : List POEntry) : List POEntry :=
  po.map (fun e =>
    if e.msgid ≠ [] then
      match (translate_entry_legacy max_msgid_length translator e).2 with
      | some t => { e with msgstr := t }
      | none => e
    else e)

/-! ### Whole-file translation (package version) -/

/-- Map `f` over a list, aborting with `none` on the first failure; the chunk
worker loop collects per-entry results and a raised exception aborts the
whole file through `translation_error_flag`. -/
def collectResults {α β : Type} (f : α → Option β) : List α → Option (List β)
  | [] => some []
  | x :: t =>
    match f x, collectResults f t with
    | some y, some ys => some (y :: ys)
    | _, _ => none

/-- The per-entry step of `translate_po_file` in `no_cache` mode (each worker
otherwise opens its own cache connection; the cache never changes which
entries appear in the output). -/
def entryOutput (cfg : Config) (translator : Str → Option Str) (e : POEntry) : Option POEntry :=
  (translate_entry_pkg cfg translator none (fun k => k) e).map (fun r => r.1)

/-- `translate_po_file` of po_file_processor.py with chunk results collected
in submission order: the untranslated entries are chunked, each chunk
translated, the results flattened, and the catalog cleared and re-extended
with exactly those entries.  On any translation error nothing is produced
(`new_data` stays `None` and no output file is written). -/
def translate_po_file_pkg (cfg : Config) (translator : Str → Option Str) (jobs : Nat)
    (po : List POEntry) : Option (List POEntry) :=
  (collectResults (collectResults (entryOutput cfg translator)) (poChunks po jobs)).map List.flatten

/-- The same fan-in under an arbitrary completion order of the chunk futures:
`as_completed` yields the chunk results in completion order, they are appended
to `results` in that order and flattened into the cleared catalog. -/
def translate_po_file_order (cfg : Config) (translator : Str → Option Str)
    (completed : List (List POEntry)) : Option (List POEntry) :=
  (collectResults (collectResults (entryOutput cfg translator)) completed).map List.flatten

/-! ### File and folder processing -/

/-- The `PoFileProcessor` data flow for one file: `_read_file` returning
`None` (a logged read failure) makes `translate_po_file` a no-op, `new_data`
stays `None`, and `write_output_file` writes nothing. -/
def process_po_file (cfg : Config) (translator : Str → Option Str) (jobs : Nat)
    (readResult : Option (List POEntry)) : Option (List POEntry) :=
  match readResult with
  | none => none
  | some po => translate_po_file_pkg cfg translator jobs po

/-- `process_files_in_folder`: process each file in turn; the loop breaks only
when the global `translation_error_flag` was set, which happens when a file
that was read successfully fails in translation.  A file whose read failed
produces no output and sets no flag, so processing continues. -/
def folder_loop (cfg : Config) (translator : Str → Option Str) (jobs : Nat) :
    List (Option (List POEntry)) → List (Option (List POEntry))
  | [] => []
  | f :: rest =>
    match f, process_po_file cfg translator jobs f with
    | some _, none => [none]
    | _, r => r :: folder_loop cfg translator jobs rest

/-! ### Facts about `hasPre` and `occursIn` -/

theorem hasPre_iff {p s : Str} : hasPre p s = true ↔ ∃ t, s = p ++ t := by
  induction p generalizing s with
  | nil =>
    constructor
    · intro _
      exact ⟨s, rfl⟩
    · intro _
      cases s <;> rfl
  | cons a p ih =>
    cases s with
    | nil =>
      simp [hasPre]
    | cons b s =>
      simp only [hasPre, Bool.and_eq_true, decide_eq_true_eq, ih, List.cons_append]
      constructor
      · rintro ⟨rfl, t, rfl⟩
        exact ⟨t, rfl⟩
      · rintro ⟨t, ht⟩
        injection ht with h1 h2
        exact ⟨h1.symm, t, h2⟩

theorem hasPre_append_self (p t : Str) : hasPre p (p ++ t) = true :=
  hasPre_iff.mpr ⟨t, rfl⟩

theorem hasPre_length {p s : Str} (h : hasPre p s = true) : p.length ≤ s.length := by
  obtain ⟨t, rfl⟩ := hasPre_iff.mp h
  simp

theorem hasPre_nil_right {p : Str} (h : hasPre p [] = true) : p = [] := by
  cases p with
  | nil => rfl
  | cons a p => simp [hasPre] at h

theorem hasPre_cons_cons {a b : Char} {p s : Str} :
    hasPre (a :: p) (b :: s) = true ↔ a = b ∧ hasPre p s = true := by
  simp [hasPre]

theorem append_eq_split {a b p t : Str} (h : a ++ b = p ++ t) (hl : a.length ≤ p.length) :
    ∃ q, p = a ++ q ∧ b = q ++ t := by
  induction a generalizing p with
  | nil => exact ⟨p, rfl, h⟩
  | cons x a ih =>
    cases p with
    | nil => simp at hl
    | cons y p =>
      injection h with h1 h2
      obtain ⟨q, rfl, hq⟩ := ih h2 (by simpa using hl)
      exact ⟨q, by cases h1; rfl, hq⟩

theorem hasPre_of_le {p a b : Str} (h : hasPre p (a ++ b) = true) (hl : p.length ≤ a.length) :
    hasPre p a = true := by
  obtain ⟨t, ht⟩ := hasPre_iff.mp h
  obtain ⟨q, hq, -⟩ := append_eq_split ht.symm hl
  rw [hq]
  exact hasPre_append_self p q

theorem occursIn_iff {p s : Str} : occursIn p s = true ↔ ∃ u v, s = u ++ p ++ v := by
  induction s with
  | nil =>
    constructor
    · intro h
      have hp := @hasPre_nil_right p (by simpa [occursIn] using h)
      exact ⟨[], [], by simp [hp]⟩
    · rintro ⟨u, v, hv⟩
      have hu : u = [] ∧ p ++ v = [] := by simpa using hv.symm
      have hp : p = [] := (List.append_eq_nil.mp hu.2).1
      simp [occursIn, hp, hasPre]
  | cons c s ih =>
    simp only [occursIn, Bool.or_eq_true, ih, hasPre_iff]
    constructor
    · rintro (⟨t, ht⟩ | ⟨u, v, hv⟩)
      · exact ⟨[], t, by simpa using ht⟩
      · exact ⟨c :: u, v, by simp [hv]⟩
    · rintro ⟨u, v, hv⟩
      cases u with
      | nil => exact Or.inl ⟨v, by simpa using hv⟩
      | cons x u =>
        injection hv with h1 h2
        exact Or.inr ⟨u, v, h2⟩

theorem occursIn_of_parts {p s : Str} (u v : Str) (h : s = u ++ p ++ v) :
    occursIn p s = true :=
  occursIn_iff.mpr ⟨u, v, h⟩

/-! ### Unfolding `replaceAll` -/

theorem replaceGo_fuel (pat rep : Str) :
    ∀ f1 f2 s, s.length ≤ f1 → s.length ≤ f2 →
      replaceGo pat rep f1 s = replaceGo pat rep f2 s := by
  intro f1
  induction f1 with
  | zero =>
    intro f2 s h1 _
    have hs : s = [] := List.eq_nil_of_length_eq_zero (Nat.le_zero.mp h1)
    subst hs
    cases f2 <;> rfl
  | succ f ih =>
    intro f2 s h1 h2
    cases s with
    | nil => cases f2 <;> rfl
    | cons c s =>
      cases f2 with
      | zero => simp at h2
      | succ f2 =>
        by_cases hcond : pat ≠ [] ∧ hasPre pat (c :: s) = true
        · have hlen : (List.drop pat.length (c :: s)).length ≤ s.length := by
            have hp : 1 ≤ pat.length := List.length_pos.mpr hcond.1
            simp only [List.length_drop, List.length_cons]
            omega
          simp only [replaceGo, if_pos hcond]
          rw [ih f2 _ (le_trans hlen (Nat.le_of_succ_le_succ h1))
            (le_trans hlen (Nat.le_of_succ_le_succ h2))]
        · simp only [replaceGo, if_neg hcond]
          rw [ih f2 s (Nat.le_of_succ_le_succ h1) (Nat.le_of_succ_le_succ h2)]

theorem replaceAll_nil (pat rep : Str) : replaceAll pat rep [] = [] := rfl

theorem replaceAll_hit {pat s : Str} (rep : Str) (hp : pat ≠ []) (h : hasPre pat s = true) :
    replaceAll pat rep s = rep ++ replaceAll pat rep (s.drop pat.length) := by
  cases s with
  | nil =>
    exact absurd (hasPre_nil_right h) hp
  | cons c s =>
    have hpl : 1 ≤ pat.length := List.length_pos.mpr hp
    have hlen : (List.drop pat.length (c :: s)).length ≤ s.length := by
      simp only [List.length_drop, List.length_cons]
      omega
    show replaceGo pat rep (s.length + 1) (c :: s) = _
    simp only [replaceGo, if_pos (And.intro hp h)]
    rw [replaceGo_fuel pat rep s.length (List.drop pat.length (c :: s)).length _ hlen le_rfl]
    rfl

theorem replaceAll_miss {pat : Str} (rep : Str) {c : Char} {s : Str}
    (h : hasPre pat (c :: s) = false) :
    replaceAll pat rep (c :: s) = c :: replaceAll pat rep s := by
  have hcond : ¬ (pat ≠ [] ∧ hasPre pat (c :: s) = true) := by
    rintro ⟨-, h2⟩
    rw [h] at h2
    exact Bool.false_ne_true h2
  show replaceGo pat rep (s.length + 1) (c :: s) = _
  simp only [replaceGo, if_neg hcond]
  rfl

theorem replaceAll_append_miss {pat : Str} (rep : Str) :
    ∀ a b : Str, (∀ off, off < a.length → hasPre pat (List.drop off a ++ b) = false) →
      replaceAll pat rep (a ++ b) = a ++ replaceAll pat rep b := by
  intro a
  induction a with
  | nil =>
    intro b _
    simp
  | cons c a ih =>
    intro b h
    have h0 : hasPre pat (c :: (a ++ b)) = false := by simpa using h 0 (by simp)
    have hrec : replaceAll pat rep (a ++ b) = a ++ replaceAll pat rep b :=
      ih b (fun off hoff => by simpa using h (off + 1) (by simpa using Nat.succ_lt_succ hoff))
    rw [List.cons_append, replaceAll_miss rep h0, hrec]
    rfl

theorem replaceAll_append_hit {pat : Str} (rep : Str) (b : Str) (hp : pat ≠ []) :
    replaceAll pat rep (pat ++ b) = rep ++ replaceAll pat rep b := by
  rw [replaceAll_hit rep hp (hasPre_append_self pat b)]
  congr 1
  rw [List.drop_left]

/-! ### Replacement along a separated piece list -/

theorem flatP_cons (bx : Bool × Str) (rest : List (Bool × Str)) :
    flatP (bx :: rest) = bx.2 ++ flatP rest := rfl

theorem replace_pieces {p r : Str} (hp : p ≠ []) :
    ∀ pieces, Sep p pieces → replaceAll p r (flatP pieces) = flatP (subst r pieces) := by
  intro pieces
  induction pieces with
  | nil => intro _; rfl
  | cons bx rest ih =>
    obtain ⟨b, x⟩ := bx
    cases b with
    | true =>
      rintro ⟨hx, hsep⟩
      subst hx
      show replaceAll x r (x ++ flatP rest) = r ++ flatP (subst r rest)
      rw [replaceAll_append_hit r (flatP rest) hp, ih hsep]
    | false =>
      rintro ⟨hmiss, hsep⟩
      show replaceAll p r (x ++ flatP rest) = x ++ flatP (subst r rest)
      rw [replaceAll_append_miss r x (flatP rest) hmiss, ih hsep]

/-! ### Facts about `takeWordRun`, `matchParen` and `matchAt` -/

theorem takeWordRun_eq (s : Str) : (takeWordRun s).1 ++ (takeWordRun s).2 = s := by
  induction s with
  | nil => rfl
  | cons c s ih =>
    by_cases h : wordChar c = true
    · simp [takeWordRun, h, ih]
    · simp [takeWordRun, h]

theorem takeWordRun_all (s : Str) : ∀ c ∈ (takeWordRun s).1, wordChar c = true := by
  induction s with
  | nil => intro c hc; simp [takeWordRun] at hc
  | cons d s ih =>
    by_cases h : wordChar d = true
    · intro c hc
      simp only [takeWordRun, if_pos h, List.mem_cons] at hc
      cases hc with
      | inl hc => exact hc ▸ h
      | inr hc => exact ih c hc
    · intro c hc
      simp [takeWordRun, h] at hc

theorem takeWordRun_stop {run : Str} (hall : ∀ c ∈ run, wordChar c = true) (d : Char)
    (hd : wordChar d = false) (t : Str) : takeWordRun (run ++ d :: t) = (run, d :: t) := by
  induction run with
  | nil =>
    simp [takeWordRun, hd]
  | cons c run ih =>
    have hc : wordChar c = true := hall c (by simp)
    have hrest := ih (fun x hx => hall x (by simp [hx]))
    simp [takeWordRun, hc, hrest]

theorem matchAt_cases {s p : Str} (h : matchAt s = some p) :
    (∃ run t, run ≠ [] ∧ (∀ c ∈ run, wordChar c = true) ∧
      s = ('%' :: '(' :: run) ++ ')' :: 's' :: t ∧ p = ('%' :: '(' :: run) ++ [')', 's'])
    ∨ (∃ c t, wordChar c = true ∧ s = '%' :: c :: t ∧ p = ['%', c])
    ∨ (∃ t, s = '%' :: '%' :: t ∧ p = ['%', '%']) := by
  match s with
  | [] => simp [matchAt] at h
  | [a] => simp [matchAt] at h
  | a :: b :: t =>
    simp only [matchAt] at h
    by_cases ha : a = '%'
    · rw [if_pos ha] at h
      subst ha
      by_cases hb : b = '('
      · rw [if_pos hb] at h
        subst hb
        by_cases hcond : (takeWordRun t).1 ≠ [] ∧ hasPre [')', 's'] (takeWordRun t).2 = true
        · rw [matchParen, if_pos hcond] at h
          obtain ⟨u, hu⟩ := hasPre_iff.mp hcond.2
          refine Or.inl ⟨(takeWordRun t).1, u, hcond.1, takeWordRun_all t, ?_, ?_⟩
          · have heq := takeWordRun_eq t
            rw [hu] at heq
            have heq2 : (takeWordRun t).1 ++ ')' :: 's' :: u = t := by simpa using heq
            show '%' :: '(' :: t = _
            conv_lhs => rw [← heq2]
            simp
          · exact ((Option.some.injEq _ _).mp h).symm
        · rw [matchParen, if_neg hcond] at h
          exact absurd h (by simp)
      · rw [if_neg hb] at h
        by_cases hw : wordChar b = true
        · rw [if_pos hw] at h
          refine Or.inr (Or.inl ⟨b, t, hw, rfl, ?_⟩)
          exact ((Option.some.injEq _ _).mp h).symm
        · rw [if_neg hw] at h
          by_cases hbp : b = '%'
          · rw [if_pos hbp] at h
            subst hbp
            refine Or.inr (Or.inr ⟨t, rfl, ((Option.some.injEq _ _).mp h).symm⟩)
          · rw [if_neg hbp] at h
            exact absurd h (by simp)
    · rw [if_neg ha] at h
      exact absurd h (by simp)

theorem matchAt_eval_paren {run : Str} (hrun : run ≠ []) (hall : ∀ c ∈ run, wordChar c = true)
    (u : Str) : matchAt (('%' :: '(' :: run) ++ ')' :: 's' :: u) = some (('%' :: '(' :: run) ++ [')', 's']) := by
  have hstop : takeWordRun (run ++ ')' :: 's' :: u) = (run, ')' :: 's' :: u) :=
    takeWordRun_stop hall ')' (by decide) ('s' :: u)
  show matchAt ('%' :: '(' :: (run ++ ')' :: 's' :: u)) = _
  simp only [matchAt, if_pos rfl, hstop]
  simp [matchParen, hrun, hasPre]

theorem matchAt_eval_word {c : Char} (hc : wordChar c = true) (t : Str) :
    matchAt ('%' :: c :: t) = some ['%', c] := by
  have hcp : c ≠ '(' := by
    intro hc2
    rw [hc2] at hc
    exact absurd hc (by decide)
  simp [matchAt, hcp, hc]

theorem matchAt_eval_pct (t : Str) : matchAt ('%' :: '%' :: t) = some ['%', '%'] := by
  have h1 : (('%' : Char) = '(') = False := by decide
  have h2 : wordChar '%' = false := by decide
  simp [matchAt, h1, h2]

theorem matchAt_self {s p : Str} (h : matchAt s = some p) : matchAt p = some p := by
  rcases matchAt_cases h with ⟨run, t, hrun, hall, -, hp⟩ | ⟨c, t, hw, -, hp⟩ | ⟨t, -, hp⟩
  · rw [hp]
    have : ('%' :: '(' :: run) ++ [')', 's'] = ('%' :: '(' :: run) ++ ')' :: 's' :: [] := rfl
    rw [this, matchAt_eval_paren hrun hall []]
  · rw [hp]
    exact matchAt_eval_word hw []
  · rw [hp]
    exact matchAt_eval_pct []

theorem matchAt_mono {p : Str} (h : matchAt p = some p) (t : Str) :
    matchAt (p ++ t) = some p := by
  rcases matchAt_cases h with ⟨run, u, hrun, hall, hs, hp⟩ | ⟨c, u, hw, hs, hp⟩ | ⟨u, hs, hp⟩
  · rw [hp]
    have hstep : (('%' :: '(' :: run) ++ [')', 's']) ++ t = ('%' :: '(' :: run) ++ ')' :: 's' :: t := by
      simp
    rw [hstep, matchAt_eval_paren hrun hall t]
  · rw [hp]
    exact matchAt_eval_word hw t
  · rw [hp]
    exact matchAt_eval_pct t

theorem matchAt_rigid {p q : Str} (hp : matchAt p = some p) (hq : matchAt q = some q)
    (h : hasPre p q = true) : p = q := by
  obtain ⟨t, rfl⟩ := hasPre_iff.mp h
  have := matchAt_mono hp t
  rw [hq] at this
  exact ((Option.some.injEq _ _).mp this).symm

theorem matchAt_rigid_append {p q R : Str} (hp : matchAt p = some p) (hq : matchAt q = some q)
    (h : hasPre p (q ++ R) = true) : p = q := by
  rcases le_or_lt p.length q.length with hle | hlt
  · exact matchAt_rigid hp hq (hasPre_of_le h hle)
  · obtain ⟨t, ht⟩ := hasPre_iff.mp h
    obtain ⟨m, hm, -⟩ := append_eq_split ht (Nat.le_of_lt hlt)
    have hqp : hasPre q p = true := by
      rw [hm]
      exact hasPre_append_self q m
    exact (matchAt_rigid hq hp hqp).symm

theorem matchAt_head {s p : Str} (h : matchAt s = some p) : ∃ t, p = '%' :: t := by
  rcases matchAt_cases h with ⟨run, t, -, -, -, hp⟩ | ⟨c, t, -, -, hp⟩ | ⟨t, -, hp⟩
  · exact ⟨'(' :: run ++ [')', 's'], by simp [hp]⟩
  · exact ⟨[c], hp⟩
  · exact ⟨['%'], hp⟩

theorem matchAt_ne_nil {s p : Str} (h : matchAt s = some p) : p ≠ [] := by
  obtain ⟨t, hp⟩ := matchAt_head h
  simp [hp]

theorem matchAt_pos {s p : Str} (h : matchAt s = some p) : 1 ≤ p.length := by
  have := matchAt_ne_nil h
  exact List.length_pos.mpr this

theorem matchAt_hasPre {s p : Str} (h : matchAt s = some p) : hasPre p s = true := by
  rcases matchAt_cases h with ⟨run, t, -, -, hs, hp⟩ | ⟨c, t, -, hs, hp⟩ | ⟨t, hs, hp⟩
  · rw [hs, hp]
    exact hasPre_iff.mpr ⟨t, by simp⟩
  · rw [hs, hp]
    exact hasPre_iff.mpr ⟨t, by simp⟩
  · rw [hs, hp]
    exact hasPre_iff.mpr ⟨t, by simp⟩

theorem mem_tail_of_split {p pre post : Str} {c : Char} (h : p = pre ++ c :: post)
    (hpre : pre ≠ []) : c ∈ p.tail := by
  cases pre with
  | nil => exact absurd rfl hpre
  | cons x pre =>
    rw [h]
    simp

theorem matchAt_inner {s p : Str} (h : matchAt s = some p) (hpp : p ≠ ['%', '%'])
    {pre post : Str} {c : Char} (hsplit : p = pre ++ c :: post) (hpre : pre ≠ []) :
    c ≠ '%' := by
  intro hcp
  subst hcp
  have hc := mem_tail_of_split hsplit hpre
  rcases matchAt_cases h with ⟨run, t, -, hall, -, hp⟩ | ⟨d, t, hw, -, hp⟩ | ⟨t, -, hp⟩
  · rw [hp] at hc
    simp only [List.cons_append, List.tail_cons, List.mem_cons, List.mem_append,
      List.not_mem_nil, or_false] at hc
    rcases hc with hc | hc | hc | hc
    · exact absurd hc (by decide)
    · exact absurd (hall _ hc) (by decide)
    · exact absurd hc (by decide)
    · exact absurd hc (by decide)
  · rw [hp] at hc
    simp only [List.tail_cons, List.mem_singleton] at hc
    rw [← hc] at hw
    exact absurd hw (by decide)
  · exact hpp hp

/-! ### Unfolding the scanner -/

theorem scanGo_fuel : ∀ f1 f2 s, s.length ≤ f1 → s.length ≤ f2 → scanGo f1 s = scanGo f2 s := by
  intro f1
  induction f1 with
  | zero =>
    intro f2 s h1 _
    have hs : s = [] := List.eq_nil_of_length_eq_zero (Nat.le_zero.mp h1)
    subst hs
    cases f2 <;> rfl
  | succ f ih =>
    intro f2 s h1 h2
    cases s with
    | nil => cases f2 <;> rfl
    | cons c s =>
      cases f2 with
      | zero => simp at h2
      | succ f2 =>
        cases hm : matchAt (c :: s) with
        | some p =>
          have hp := matchAt_pos hm
          have hlen : (List.drop p.length (c :: s)).length ≤ s.length := by
            simp only [List.length_drop, List.length_cons]
            omega
          simp only [scanGo, hm]
          rw [ih f2 _ (le_trans hlen (Nat.le_of_succ_le_succ h1))
            (le_trans hlen (Nat.le_of_succ_le_succ h2))]
        | none =>
          simp only [scanGo, hm]
          rw [ih f2 s (Nat.le_of_succ_le_succ h1) (Nat.le_of_succ_le_succ h2)]

theorem scanPO_nil : scanPO [] = ([], []) := rfl

theorem scanPO_match {c : Char} {s p : Str} (hm : matchAt (c :: s) = some p) :
    scanPO (c :: s) =
      (([], p) :: (scanPO (List.drop p.length (c :: s))).1,
        (scanPO (List.drop p.length (c :: s))).2) := by
  have hp := matchAt_pos hm
  have hlen : (List.drop p.length (c :: s)).length ≤ s.length := by
    simp only [List.length_drop, List.length_cons]
    omega
  show scanGo (s.length + 1) (c :: s) = _
  simp only [scanGo, hm]
  rw [scanGo_fuel s.length (List.drop p.length (c :: s)).length _ hlen le_rfl]
  rfl

theorem scanPO_miss_nil {c : Char} {s : Str} (hm : matchAt (c :: s) = none)
    (h1 : (scanPO s).1 = []) : scanPO (c :: s) = ([], c :: (scanPO s).2) := by
  show scanGo (s.length + 1) (c :: s) = _
  simp only [scanGo, hm]
  rw [show scanGo s.length s = scanPO s from rfl]
  cases hsc : scanPO s with
  | mk ps gl =>
    rw [hsc] at h1
    subst h1
    rfl

theorem scanPO_miss_cons {c : Char} {s g q : Str} {ps : List (Str × Str)}
    (hm : matchAt (c :: s) = none) (h1 : (scanPO s).1 = (g, q) :: ps) :
    scanPO (c :: s) = ((c :: g, q) :: ps, (scanPO s).2) := by
  show scanGo (s.length + 1) (c :: s) = _
  simp only [scanGo, hm]
  rw [show scanGo s.length s = scanPO s from rfl]
  cases hsc : scanPO s with
  | mk ps2 gl =>
    rw [hsc] at h1
    simp only at h1
    subst h1
    rfl

theorem scan_flat_bounded :
    ∀ n s, s.length ≤ n → flatPairs (fun q => q) (scanPO s).1 (scanPO s).2 = s := by
  intro n
  induction n with
  | zero =>
    intro s h
    have hs : s = [] := List.eq_nil_of_length_eq_zero (Nat.le_zero.mp h)
    subst hs
    rfl
  | succ n ih =>
    intro s h
    cases s with
    | nil => rfl
    | cons c s =>
      cases hm : matchAt (c :: s) with
      | some p =>
        have hpre := matchAt_hasPre hm
        obtain ⟨t, ht⟩ := hasPre_iff.mp hpre
        have hdrop : List.drop p.length (c :: s) = t := by
          rw [ht, List.drop_left]
        have hp := matchAt_pos hm
        have hlen : t.length ≤ n := by
          have : (c :: s).length = p.length + t.length := by rw [ht]; simp
          simp only [List.length_cons] at this h
          omega
        rw [scanPO_match hm, hdrop]
        show [] ++ p ++ flatPairs (fun q => q) (scanPO t).1 (scanPO t).2 = c :: s
        rw [ih t hlen, List.nil_append, ← ht]
      | none =>
        have hlen : s.length ≤ n := by
          simp only [List.length_cons] at h
          omega
        cases hsc : (scanPO s).1 with
        | nil =>
          rw [scanPO_miss_nil hm hsc]
          show c :: (scanPO s).2 = c :: s
          have := ih s hlen
          rw [hsc] at this
          simpa using this
        | cons gq ps =>
          obtain ⟨g, q⟩ := gq
          rw [scanPO_miss_cons hm hsc]
          show (c :: g) ++ q ++ flatPairs (fun q => q) ps (scanPO s).2 = c :: s
          have := ih s hlen
          rw [hsc] at this
          have hflat : g ++ q ++ flatPairs (fun q => q) ps (scanPO s).2 = s := this
          conv_rhs => rw [← hflat]
          simp

theorem scan_flat (s : Str) : flatPairs (fun q => q) (scanPO s).1 (scanPO s).2 = s :=
  scan_flat_bounded s.length s le_rfl

theorem scan_match_bounded :
    ∀ n s, s.length ≤ n → ∀ gq ∈ (scanPO s).1, matchAt gq.2 = some gq.2 := by
  intro n
  induction n with
  | zero =>
    intro s h gq hgq
    have hs : s = [] := List.eq_nil_of_length_eq_zero (Nat.le_zero.mp h)
    subst hs
    simp [scanPO_nil] at hgq
  | succ n ih =>
    intro s h gq hgq
    cases s with
    | nil => simp [scanPO_nil] at hgq
    | cons c s =>
      cases hm : matchAt (c :: s) with
      | some p =>
        have hpre := matchAt_hasPre hm
        obtain ⟨t, ht⟩ := hasPre_iff.mp hpre
        have hdrop : List.drop p.length (c :: s) = t := by
          rw [ht, List.drop_left]
        have hp := matchAt_pos hm
        have hlen : t.length ≤ n := by
          have : (c :: s).length = p.length + t.length := by rw [ht]; simp
          simp only [List.length_cons] at this h
          omega
        rw [scanPO_match hm, hdrop] at hgq
        simp only [List.mem_cons] at hgq
        cases hgq with
        | inl hgq =>
          rw [hgq]
          exact matchAt_self hm
        | inr hgq => exact ih t hlen gq hgq
      | none =>
        have hlen : s.length ≤ n := by
          simp only [List.length_cons] at h
          omega
        cases hsc : (scanPO s).1 with
        | nil =>
          rw [scanPO_miss_nil hm hsc] at hgq
          simp at hgq
        | cons gq2 ps =>
          obtain ⟨g, q⟩ := gq2
          rw [scanPO_miss_cons hm hsc] at hgq
          simp only [List.mem_cons] at hgq
          cases hgq with
          | inl hgq =>
            rw [hgq]
            have := ih s hlen (g, q) (by rw [hsc]; exact List.mem_cons_self _ _)
            exact this
          | inr hgq =>
            exact ih s hlen gq (by rw [hsc]; exact List.mem_cons_of_mem _ hgq)

theorem scan_match {s : Str} (gq : Str × Str) (h : gq ∈ (scanPO s).1) :
    matchAt gq.2 = some gq.2 :=
  scan_match_bounded s.length s le_rfl gq h

/-! ### Facts about markers -/

theorem marker_def (i : Nat) : marker i = "PLACEHOLDER_".data ++ Nat.toDigits 10 i := rfl

theorem marker_head (i : Nat) : ∃ t, marker i = 'P' :: t :=
  ⟨"LACEHOLDER_".data ++ Nat.toDigits 10 i, rfl⟩

theorem marker_ne_nil (i : Nat) : marker i ≠ [] := by
  obtain ⟨t, ht⟩ := marker_head i
  simp [ht]

theorem marker_len : ∀ i < 10, (marker i).length = 13 := by decide

theorem marker_inj : ∀ i < 10, ∀ j < 10, marker i = marker j → i = j := by decide

theorem marker_get_ne_P : ∀ i < 10, ∀ k < 13, 1 ≤ k → (marker i).get? k ≠ some 'P' := by decide

theorem marker_get_ne_pct : ∀ i < 10, ∀ k < 13, (marker i).get? k ≠ some '%' := by decide

theorem get?_append_cons (pre post : Str) (c : Char) :
    (pre ++ c :: post).get? pre.length = some c := by
  induction pre with
  | nil => rfl
  | cons x pre ih => simpa using ih

theorem marker_split_ne_P {i : Nat} (hi : i < 10) {pre post : Str} {c : Char}
    (h : marker i = pre ++ c :: post) (hpre : pre ≠ []) : c ≠ 'P' := by
  intro hc
  subst hc
  have hg : (marker i).get? pre.length = some 'P' := by
    rw [h]
    exact get?_append_cons pre post 'P'
  have hlen : pre.length < (marker i).length := by
    rw [h]
    simp
  rw [marker_len i hi] at hlen
  exact marker_get_ne_P i hi pre.length hlen (List.length_pos.mpr hpre) hg

theorem marker_split_ne_pct {i : Nat} (hi : i < 10) {pre post : Str} {c : Char}
    (h : marker i = pre ++ c :: post) : c ≠ '%' := by
  intro hc
  subst hc
  have hg : (marker i).get? pre.length = some '%' := by
    rw [h]
    exact get?_append_cons pre post '%'
  have hlen : pre.length < (marker i).length := by
    rw [h]
    simp
  rw [marker_len i hi] at hlen
  exact marker_get_ne_pct i hi pre.length hlen hg

theorem occursIn_PH_of_marker_hasPre {i : Nat} {A u v m : Str}
    (hm : m = u ++ A ++ v) (h : hasPre (marker i) A = true) :
    occursIn ("PLACEHOLDER_".data) m = true := by
  obtain ⟨t, ht⟩ := hasPre_iff.mp h
  refine occursIn_of_parts u (Nat.toDigits 10 i ++ t ++ v) ?_
  rw [hm, ht, marker_def]
  simp [List.append_assoc]

/-! ### Facts about `firstIdx` -/

theorem firstIdx_cons (x y : Str) (t : List Str) :
    firstIdx x (y :: t) = if y = x then 0 else firstIdx x t + 1 := rfl

theorem firstIdx_lt {x : Str} : ∀ {P : List Str}, x ∈ P → firstIdx x P < P.length := by
  intro P
  induction P with
  | nil => intro h; simp at h
  | cons y t ih =>
    intro h
    rw [firstIdx_cons]
    by_cases hy : y = x
    · rw [if_pos hy]
      simp
    · have hx : x ∈ t := by
        cases List.mem_cons.mp h with
        | inl h2 => exact absurd h2.symm hy
        | inr h2 => exact h2
      rw [if_neg hy, List.length_cons]
      exact Nat.succ_lt_succ (ih hx)

theorem get_of_firstIdx_eq {x : Str} :
    ∀ {P : List Str} (i : Nat) (h : i < P.length), x ∈ P → firstIdx x P = i →
      P.get ⟨i, h⟩ = x := by
  intro P
  induction P with
  | nil => intro i h hx _; simp at h
  | cons y t ih =>
    intro i h hx hfi
    rw [firstIdx_cons] at hfi
    by_cases hy : y = x
    · rw [if_pos hy] at hfi
      subst hfi
      exact hy
    · rw [if_neg hy] at hfi
      have hxt : x ∈ t := by
        cases List.mem_cons.mp hx with
        | inl h2 => exact absurd h2.symm hy
        | inr h2 => exact h2
      cases i with
      | zero => exact absurd hfi (by simp)
      | succ i =>
        have hfi2 : firstIdx x t = i := by omega
        rw [List.get_cons_succ]
        exact ih i (Nat.lt_of_succ_lt_succ h) hxt hfi2

theorem firstIdx_le {P : List Str} :
    ∀ (i : Nat) (h : i < P.length), firstIdx (P.get ⟨i, h⟩) P ≤ i := by
  induction P with
  | nil => intro i h; simp at h
  | cons y t ih =>
    intro i h
    rw [firstIdx_cons]
    by_cases hy : y = (y :: t).get ⟨i, h⟩
    · rw [if_pos hy]
      exact Nat.zero_le i
    · rw [if_neg hy]
      cases i with
      | zero => exact absurd rfl hy
      | succ i =>
        rw [List.get_cons_succ] at hy ⊢
        exact Nat.succ_le_succ (ih i (Nat.lt_of_succ_lt_succ h))

/-! ### Flattening flagged pieces built from a scan decomposition -/

theorem flatP_toPieces (view : Str → Str) (flagOf : Str → Bool) :
    ∀ (pairs : List (Str × Str)) (gl : Str),
      flatP (toPieces view flagOf pairs gl) = flatPairs view pairs gl := by
  intro pairs
  induction pairs with
  | nil =>
    intro gl
    simp [toPieces, flatP, flatPairs]
  | cons gq rest ih =>
    intro gl
    obtain ⟨g, q⟩ := gq
    show g ++ (view q ++ flatP (toPieces view flagOf rest gl)) = g ++ view q ++ flatPairs view rest gl
    rw [ih gl]
    simp [List.append_assoc]

theorem flatP_subst_toPieces (r : Str) (view : Str → Str) (flagOf : Str → Bool) :
    ∀ (pairs : List (Str × Str)) (gl : Str),
      flatP (subst r (toPieces view flagOf pairs gl)) =
        flatPairs (fun q => if flagOf q then r else view q) pairs gl := by
  intro pairs
  induction pairs with
  | nil =>
    intro gl
    simp [toPieces, subst, flatP, flatPairs]
  | cons gq rest ih =>
    intro gl
    obtain ⟨g, q⟩ := gq
    show g ++ ((if flagOf q then r else view q) ++ flatP (subst r (toPieces view flagOf rest gl)))
      = g ++ (if flagOf q then r else view q) ++ flatPairs (fun q => if flagOf q then r else view q) rest gl
    rw [ih gl]
    simp [List.append_assoc]

theorem flatPairs_congr {v1 v2 : Str → Str} :
    ∀ (pairs : List (Str × Str)) (gl : Str), (∀ gq ∈ pairs, v1 gq.2 = v2 gq.2) →
      flatPairs v1 pairs gl = flatPairs v2 pairs gl := by
  intro pairs
  induction pairs with
  | nil => intro gl _; rfl
  | cons gq rest ih =>
    intro gl h
    obtain ⟨g, q⟩ := gq
    show g ++ v1 q ++ flatPairs v1 rest gl = g ++ v2 q ++ flatPairs v2 rest gl
    rw [h (g, q) (List.mem_cons_self _ _), ih gl (fun x hx => h x (List.mem_cons_of_mem _ hx))]

/-! ### Occurrence-refutation helpers -/

theorem drop_cons_of_hasPre {e : Char} {pt x R : Str} {off : Nat}
    (hoff : off < x.length) (h : hasPre (e :: pt) (List.drop off x ++ R) = true) :
    ∃ w, List.drop off x = e :: w ∧ x = List.take off x ++ e :: w := by
  have hlen : 0 < (List.drop off x).length := by
    rw [List.length_drop]
    omega
  cases hd : List.drop off x with
  | nil =>
    rw [hd] at hlen
    simp at hlen
  | cons d w =>
    rw [hd, List.cons_append] at h
    have hde := (hasPre_cons_cons.mp h).1
    subst hde
    refine ⟨w, rfl, ?_⟩
    conv_lhs => rw [← List.take_append_drop off x]
    rw [hd]

/-- Refute an occurrence of `marker i` that starts inside text known to occur
verbatim in `m` and then runs into either the end of the string or a position
holding the character `P` at an offset at least 1 of the marker. -/
theorem marker_kill {i : Nat} (hi : i < 10) {m u v A s1 : Str}
    (hPH : occursIn ("PLACEHOLDER_".data) m = false)
    (hA : m = u ++ A ++ v) (hAne : A ≠ [])
    (hs1 : s1 = [] ∨ ∃ t, s1 = 'P' :: t) :
    hasPre (marker i) (A ++ s1) = false := by
  cases hh : hasPre (marker i) (A ++ s1) with
  | false => rfl
  | true =>
    exfalso
    rcases le_or_lt (marker i).length A.length with hle | hlt
    · have := occursIn_PH_of_marker_hasPre hA (hasPre_of_le hh hle)
      rw [hPH] at this
      exact Bool.false_ne_true this
    · obtain ⟨t, ht⟩ := hasPre_iff.mp hh
      obtain ⟨p2, hp2, hs⟩ := append_eq_split ht (Nat.le_of_lt hlt)
      have hp2ne : p2 ≠ [] := by
        intro h0
        rw [h0] at hp2
        have : (marker i).length = A.length := by rw [hp2]; simp
        omega
      cases hs1 with
      | inl h1 =>
        rw [h1] at hs
        exact hp2ne (List.append_eq_nil.mp hs.symm).1
      | inr h1 =>
        obtain ⟨tp, htp⟩ := h1
        cases p2 with
        | nil => exact hp2ne rfl
        | cons e p2t =>
          rw [htp, List.cons_append] at hs
          injection hs with he _
          rw [← he] at hp2
          exact marker_split_ne_P hi hp2 hAne rfl

/-! ### Separation for the masking steps -/

theorem gap_oblig {p pt : Str} (hphead : p = '%' :: pt) {g : Str} (hg : ∀ c ∈ g, c ≠ '%')
    (R : Str) : ∀ off, off < g.length → hasPre p (List.drop off g ++ R) = false := by
  intro off hoff
  cases hh : hasPre p (List.drop off g ++ R) with
  | false => rfl
  | true =>
    exfalso
    rw [hphead] at hh
    obtain ⟨w, hw, -⟩ := drop_cons_of_hasPre hoff hh
    exact hg '%' (List.drop_subset off g (by rw [hw]; exact List.mem_cons_self _ _)) rfl

theorem marker_oblig_mask {p pt : Str} (hphead : p = '%' :: pt) {j : Nat} (hj : j < 10)
    (R : Str) : ∀ off, off < (marker j).length → hasPre p (List.drop off (marker j) ++ R) = false := by
  intro off hoff
  cases hh : hasPre p (List.drop off (marker j) ++ R) with
  | false => rfl
  | true =>
    exfalso
    rw [hphead] at hh
    obtain ⟨w, hw, hsplit⟩ := drop_cons_of_hasPre hoff hh
    exact marker_split_ne_pct hj hsplit rfl

theorem item_oblig_mask {p q pt : Str} (hpm : matchAt p = some p) (hqm : matchAt q = some q)
    (hqpp : q ≠ ['%', '%']) (hne : p ≠ q) (hphead : p = '%' :: pt) (R : Str) :
    ∀ off, off < q.length → hasPre p (List.drop off q ++ R) = false := by
  intro off hoff
  cases hh : hasPre p (List.drop off q ++ R) with
  | false => rfl
  | true =>
    exfalso
    cases off with
    | zero =>
      rw [List.drop_zero] at hh
      exact hne (matchAt_rigid_append hpm hqm hh)
    | succ off =>
      rw [hphead] at hh
      obtain ⟨w, hw, hsplit⟩ := drop_cons_of_hasPre hoff hh
      have htake : List.take (off + 1) q ≠ [] := by
        have hlt : (List.take (off + 1) q).length = off + 1 := by
          rw [List.length_take]
          omega
        intro h0
        rw [h0] at hlt
        simp at hlt
      exact matchAt_inner hqm hqpp hsplit htake rfl

theorem sep_mask (P : List Str) (i : Nat) (hi : i < P.length) (hP10 : P.length ≤ 10)
    (hpm : matchAt (P.get ⟨i, hi⟩) = some (P.get ⟨i, hi⟩)) :
    ∀ (pairs : List (Str × Str)) (gl : Str),
      (∀ gq ∈ pairs, matchAt gq.2 = some gq.2) →
      (∀ gq ∈ pairs, gq.2 ∈ P) →
      (∀ gq ∈ pairs, gq.2 ≠ ['%', '%']) →
      (∀ gq ∈ pairs, ∀ c ∈ gq.1, c ≠ '%') →
      (∀ c ∈ gl, c ≠ '%') →
      Sep (P.get ⟨i, hi⟩) (toPieces (maskView P i) (fun q => decide (firstIdx q P = i)) pairs gl) := by
  obtain ⟨phead, hphead⟩ := matchAt_head hpm
  intro pairs
  induction pairs with
  | nil =>
    intro gl _ _ _ _ hgl
    exact ⟨gap_oblig hphead hgl (flatP []), trivial⟩
  | cons gq rest ih =>
    intro gl hmatch hmem hpp hgap hgl
    obtain ⟨g, q⟩ := gq
    have hmatch2 := fun x hx => hmatch x (List.mem_cons_of_mem _ hx)
    have hmem2 := fun x hx => hmem x (List.mem_cons_of_mem _ hx)
    have hpp2 := fun x hx => hpp x (List.mem_cons_of_mem _ hx)
    have hgap2 := fun x hx => hgap x (List.mem_cons_of_mem _ hx)
    have hqmatch : matchAt q = some q := hmatch (g, q) (List.mem_cons_self _ _)
    have hqmem : q ∈ P := hmem (g, q) (List.mem_cons_self _ _)
    have hqpp : q ≠ ['%', '%'] := hpp (g, q) (List.mem_cons_self _ _)
    have hggap : ∀ c ∈ g, c ≠ '%' := hgap (g, q) (List.mem_cons_self _ _)
    have hrest := ih gl hmatch2 hmem2 hpp2 hgap2 hgl
    show Sep (P.get ⟨i, hi⟩) ((false, g) :: (decide (firstIdx q P = i), maskView P i q) :: _)
    by_cases hfq : firstIdx q P = i
    · rw [show (decide (firstIdx q P = i)) = true by simp [hfq]]
      have hqget : P.get ⟨i, hi⟩ = q := get_of_firstIdx_eq i hi hqmem hfq
      have hview : maskView P i q = q := by
        rw [maskView, if_neg (by omega)]
      exact ⟨gap_oblig hphead hggap _, by rw [hview, hqget], hrest⟩
    · rw [show (decide (firstIdx q P = i)) = false by simp [hfq]]
      refine ⟨gap_oblig hphead hggap _, ?_, hrest⟩
      by_cases hlt : firstIdx q P < i
      · rw [maskView, if_pos hlt]
        exact marker_oblig_mask hphead (by omega : firstIdx q P < 10) _
      · rw [maskView, if_neg hlt]
        have hne : P.get ⟨i, hi⟩ ≠ q := by
          intro hpq
          have : firstIdx q P ≤ i := by
            rw [← hpq]
            exact firstIdx_le i hi
          omega
        exact item_oblig_mask hpm hqmatch hqpp hne hphead _

/-! ### Separation for the restore steps -/

theorem rest_diverge (P : List Str) (i : Nat) :
    ∀ (pairs : List (Str × Str)) (gl : Str),
      ∃ c s1 s2, flatPairs (restView P i) pairs gl = c ++ s1 ∧
        flatPairs (fun q => q) pairs gl = c ++ s2 ∧
        (s1 = [] ∨ ∃ t, s1 = 'P' :: t) := by
  intro pairs
  induction pairs with
  | nil =>
    intro gl
    exact ⟨gl, [], [], by simp [flatPairs], by simp [flatPairs], Or.inl rfl⟩
  | cons gq rest ih =>
    intro gl
    obtain ⟨g, q⟩ := gq
    by_cases hf : firstIdx q P < i
    · obtain ⟨c, s1, s2, h1, h2, h3⟩ := ih gl
      refine ⟨g ++ q ++ c, s1, s2, ?_, ?_, h3⟩
      · show g ++ restView P i q ++ flatPairs (restView P i) rest gl = _
        rw [restView, if_pos hf, h1]
        simp [List.append_assoc]
      · show g ++ q ++ flatPairs (fun q => q) rest gl = _
        rw [h2]
        simp [List.append_assoc]
    · obtain ⟨t0, ht0⟩ := marker_head (firstIdx q P)
      refine ⟨g, marker (firstIdx q P) ++ flatPairs (restView P i) rest gl,
        q ++ flatPairs (fun q => q) rest gl, ?_, by simp [flatPairs, List.append_assoc],
        Or.inr ⟨t0 ++ flatPairs (restView P i) rest gl, ?_⟩⟩
      · show g ++ restView P i q ++ flatPairs (restView P i) rest gl = _
        rw [restView, if_neg hf]
        simp [List.append_assoc]
      · rw [ht0]
        rfl

theorem marker_oblig_rest {i j : Nat} (hi : i < 10) (hj : j < 10) (hij : i ≠ j) (R : Str) :
    ∀ off, off < (marker j).length → hasPre (marker i) (List.drop off (marker j) ++ R) = false := by
  intro off hoff
  cases hh : hasPre (marker i) (List.drop off (marker j) ++ R) with
  | false => rfl
  | true =>
    exfalso
    cases off with
    | zero =>
      rw [List.drop_zero] at hh
      have h13 : (marker i).length ≤ (marker j).length := by
        rw [marker_len i hi, marker_len j hj]
      have h2 : hasPre (marker i) (marker j) = true := hasPre_of_le hh h13
      obtain ⟨t, ht⟩ := hasPre_iff.mp h2
      have ht0 : t = [] := by
        have hlen := congrArg List.length ht
        rw [marker_len j hj, List.length_append, marker_len i hi] at hlen
        simpa using List.eq_nil_of_length_eq_zero (by omega)
      rw [ht0, List.append_nil] at ht
      exact hij (marker_inj i hi j hj ht.symm)
    | succ off =>
      obtain ⟨mt, hmt⟩ := marker_head i
      rw [hmt] at hh
      obtain ⟨w, hw, hsplit⟩ := drop_cons_of_hasPre hoff hh
      have htake : List.take (off + 1) (marker j) ≠ [] := by
        have hlt : (List.take (off + 1) (marker j)).length = off + 1 := by
          rw [List.length_take]
          omega
        intro h0
        rw [h0] at hlt
        simp at hlt
      exact marker_split_ne_P hj hsplit htake rfl

theorem kill_oblig {i : Nat} (hi : i < 10) {m u x c s1 s2 C : Str}
    (hPH : occursIn ("PLACEHOLDER_".data) m = false)
    (hm : m = u ++ x ++ c ++ s2)
    (hC : C = c ++ s1)
    (hs1 : s1 = [] ∨ ∃ t, s1 = 'P' :: t) :
    ∀ off, off < x.length → hasPre (marker i) (List.drop off x ++ C) = false := by
  intro off hoff
  subst hC
  have hA : m = (u ++ List.take off x) ++ (List.drop off x ++ c) ++ s2 := by
    rw [hm]
    conv_lhs => rw [← List.take_append_drop off x]
    simp only [List.append_assoc]
  have hAne : List.drop off x ++ c ≠ [] := by
    have hpos : 0 < (List.drop off x).length := by
      rw [List.length_drop]
      omega
    intro h0
    rw [(List.append_eq_nil.mp h0).1] at hpos
    simp at hpos
  have hres := marker_kill hi hPH hA hAne hs1
  rw [List.append_assoc] at hres
  exact hres

theorem sep_rest (m : Str) (P : List Str) (i : Nat) (hi : i < P.length) (hP10 : P.length ≤ 10)
    (hPH : occursIn ("PLACEHOLDER_".data) m = false) :
    ∀ (pairs : List (Str × Str)) (gl : Str) (u : Str),
      m = u ++ flatPairs (fun q => q) pairs gl →
      (∀ gq ∈ pairs, gq.2 ∈ P) →
      Sep (marker i) (toPieces (restView P i) (fun q => decide (firstIdx q P = i)) pairs gl) := by
  have hi10 : i < 10 := lt_of_lt_of_le hi hP10
  intro pairs
  induction pairs with
  | nil =>
    intro gl u hm _
    refine ⟨?_, trivial⟩
    have hm2 : m = u ++ gl ++ [] ++ [] := by simpa [flatPairs] using hm
    intro off hoff
    exact kill_oblig hi10 hPH hm2 rfl (Or.inl rfl) off hoff
  | cons gq rest ih =>
    intro gl u hm hmem
    obtain ⟨g, q⟩ := gq
    have hmem2 := fun x hx => hmem x (List.mem_cons_of_mem _ hx)
    have hqmem : q ∈ P := hmem (g, q) (List.mem_cons_self _ _)
    have hfq10 : firstIdx q P < 10 := lt_of_lt_of_le (firstIdx_lt hqmem) hP10
    have hmflat : m = u ++ g ++ q ++ flatPairs (fun q => q) rest gl := by
      rw [hm]
      show _ = u ++ g ++ q ++ flatPairs (fun q => q) rest gl
      simp [flatPairs, List.append_assoc]
    have hrest := ih gl (u ++ g ++ q) (by rw [hmflat]) hmem2
    show Sep (marker i) ((false, g) :: (decide (firstIdx q P = i), restView P i q) :: _)
    obtain ⟨c0, s10, s20, hc1, hc2, hc3⟩ := rest_diverge P i rest gl
    have hFP : flatP (toPieces (restView P i) (fun q => decide (firstIdx q P = i)) rest gl)
        = c0 ++ s10 := by
      rw [flatP_toPieces, hc1]
    by_cases hfq : firstIdx q P = i
    · -- flagged piece: it currently reads exactly `marker i`
      rw [show (decide (firstIdx q P = i)) = true by simp [hfq]]
      have hview : restView P i q = marker i := by
        rw [restView, if_neg (by omega), hfq]
      obtain ⟨t0, ht0⟩ := marker_head i
      have hmK : m = u ++ g ++ [] ++ (q ++ flatPairs (fun q => q) rest gl) := by
        rw [hmflat]
        simp [List.append_assoc]
      have hCK : restView P i q
            ++ flatP (toPieces (restView P i) (fun q => decide (firstIdx q P = i)) rest gl)
          = [] ++ (restView P i q
            ++ flatP (toPieces (restView P i) (fun q => decide (firstIdx q P = i)) rest gl)) := by
        rw [List.nil_append]
      have hs1K : ∃ t, restView P i q
            ++ flatP (toPieces (restView P i) (fun q => decide (firstIdx q P = i)) rest gl)
          = 'P' :: t := by
        refine ⟨t0 ++ flatP (toPieces (restView P i) (fun q => decide (firstIdx q P = i)) rest gl), ?_⟩
        simp [hview, ht0]
      exact ⟨kill_oblig hi10 hPH hmK hCK (Or.inr hs1K), by rw [hview], hrest⟩
    · rw [show (decide (firstIdx q P = i)) = false by simp [hfq]]
      by_cases hf : firstIdx q P < i
      · -- item already restored to its original text `q`
        have hview : restView P i q = q := by rw [restView, if_pos hf]
        have hmK : m = u ++ g ++ (q ++ c0) ++ s20 := by
          rw [hmflat, hc2]
          simp [List.append_assoc]
        have hCK : restView P i q
              ++ flatP (toPieces (restView P i) (fun q => decide (firstIdx q P = i)) rest gl)
            = (q ++ c0) ++ s10 := by
          rw [hview, hFP]
          simp [List.append_assoc]
        have hmK2 : m = (u ++ g) ++ q ++ c0 ++ s20 := by
          rw [hmflat, hc2]
          simp [List.append_assoc]
        refine ⟨kill_oblig hi10 hPH hmK hCK hc3, ?_, hrest⟩
        rw [hview]
        exact kill_oblig hi10 hPH hmK2 hFP hc3
      · -- item is a different marker
        have hview : restView P i q = marker (firstIdx q P) := by rw [restView, if_neg hf]
        obtain ⟨t0, ht0⟩ := marker_head (firstIdx q P)
        have hmK : m = u ++ g ++ [] ++ (q ++ flatPairs (fun q => q) rest gl) := by
          rw [hmflat]
          simp [List.append_assoc]
        have hCK : restView P i q
              ++ flatP (toPieces (restView P i) (fun q => decide (firstIdx q P = i)) rest gl)
            = [] ++ (restView P i q
              ++ flatP (toPieces (restView P i) (fun q => decide (firstIdx q P = i)) rest gl)) := by
          rw [List.nil_append]
        have hs1K : ∃ t, restView P i q
              ++ flatP (toPieces (restView P i) (fun q => decide (firstIdx q P = i)) rest gl)
            = 'P' :: t := by
          refine ⟨t0 ++ flatP (toPieces (restView P i) (fun q => decide (firstIdx q P = i)) rest gl), ?_⟩
          simp [hview, ht0]
        refine ⟨kill_oblig hi10 hPH hmK hCK (Or.inr hs1K), ?_, hrest⟩
        rw [hview]
        exact marker_oblig_rest hi10 hfq10 (fun h => hfq h.symm) _

/-! ### One masking / restore step on the decomposed string -/

theorem mask_step (P : List Str) (i : Nat) (hi : i < P.length) (hP10 : P.length ≤ 10)
    (hpm : matchAt (P.get ⟨i, hi⟩) = some (P.get ⟨i, hi⟩))
    (pairs : List (Str × Str)) (gl : Str)
    (hmatch : ∀ gq ∈ pairs, matchAt gq.2 = some gq.2)
    (hmem : ∀ gq ∈ pairs, gq.2 ∈ P)
    (hpp : ∀ gq ∈ pairs, gq.2 ≠ ['%', '%'])
    (hgap : ∀ gq ∈ pairs, ∀ c ∈ gq.1, c ≠ '%')
    (hgl : ∀ c ∈ gl, c ≠ '%') :
    replaceAll (P.get ⟨i, hi⟩) (marker i) (flatPairs (maskView P i) pairs gl)
      = flatPairs (maskView P (i + 1)) pairs gl := by
  have hpne : P.get ⟨i, hi⟩ ≠ [] := matchAt_ne_nil hpm
  rw [← flatP_toPieces (maskView P i) (fun q => decide (firstIdx q P = i)) pairs gl,
    replace_pieces hpne _ (sep_mask P i hi hP10 hpm pairs gl hmatch hmem hpp hgap hgl),
    flatP_subst_toPieces]
  apply flatPairs_congr
  intro gq _
  by_cases hfq : firstIdx gq.2 P = i
  · rw [if_pos (by simp [hfq]), maskView, if_pos (by omega), hfq]
  · rw [if_neg (by simp [hfq]), maskView, maskView]
    by_cases hlt : firstIdx gq.2 P < i
    · rw [if_pos hlt, if_pos (by omega)]
    · rw [if_neg hlt, if_neg (by omega)]

theorem rest_step (m : Str) (P : List Str) (i : Nat) (hi : i < P.length) (hP10 : P.length ≤ 10)
    (hPH : occursIn ("PLACEHOLDER_".data) m = false)
    (pairs : List (Str × Str)) (gl : Str)
    (horig : m = flatPairs (fun q => q) pairs gl)
    (hmem : ∀ gq ∈ pairs, gq.2 ∈ P) :
    replaceAll (marker i) (P.get ⟨i, hi⟩) (flatPairs (restView P i) pairs gl)
      = flatPairs (restView P (i + 1)) pairs gl := by
  have hm0 : m = [] ++ flatPairs (fun q => q) pairs gl := by
    rw [List.nil_append]
    exact horig
  rw [← flatP_toPieces (restView P i) (fun q => decide (firstIdx q P = i)) pairs gl,
    replace_pieces (marker_ne_nil i) _ (sep_rest m P i hi hP10 hPH pairs gl [] hm0 hmem),
    flatP_subst_toPieces]
  apply flatPairs_congr
  intro gq hgq
  by_cases hfq : firstIdx gq.2 P = i
  · rw [if_pos (by simp [hfq]), restView, if_pos (by omega)]
    exact get_of_firstIdx_eq i hi (hmem gq hgq) hfq
  · rw [if_neg (by simp [hfq]), restView, restView]
    by_cases hlt : firstIdx gq.2 P < i
    · rw [if_pos hlt, if_pos (by omega)]
    · rw [if_neg hlt, if_neg (by omega)]

/-! ### Running all masking / restore steps -/

theorem mask_stages (P : List Str) (hP10 : P.length ≤ 10)
    (pairs : List (Str × Str)) (gl : Str)
    (hmatch : ∀ gq ∈ pairs, matchAt gq.2 = some gq.2)
    (hmem : ∀ gq ∈ pairs, gq.2 ∈ P)
    (hpp : ∀ gq ∈ pairs, gq.2 ≠ ['%', '%'])
    (hgap : ∀ gq ∈ pairs, ∀ c ∈ gq.1, c ≠ '%')
    (hgl : ∀ c ∈ gl, c ≠ '%')
    (hgetm : ∀ (j : Nat) (hj : j < P.length), matchAt (P.get ⟨j, hj⟩) = some (P.get ⟨j, hj⟩)) :
    ∀ k i, i ≤ P.length → P.length - i = k →
      maskFold (enumIdx i (List.drop i P)) (flatPairs (maskView P i) pairs gl)
        = flatPairs (maskView P P.length) pairs gl := by
  intro k
  induction k with
  | zero =>
    intro i hile hk
    have hip : i = P.length := by omega
    subst hip
    rw [List.drop_length]
    rfl
  | succ k ihk =>
    intro i hile hk
    have hi : i < P.length := by omega
    have hdrop : List.drop i P = P.get ⟨i, hi⟩ :: List.drop (i + 1) P :=
      List.drop_eq_get_cons hi
    rw [hdrop]
    show maskFold (enumIdx (i + 1) (List.drop (i + 1) P))
      (replaceAll (P.get ⟨i, hi⟩) (marker i) (flatPairs (maskView P i) pairs gl)) = _
    rw [mask_step P i hi hP10 (hgetm i hi) pairs gl hmatch hmem hpp hgap hgl]
    exact ihk (i + 1) (by omega) (by omega)

theorem rest_stages (m : Str) (P : List Str) (hP10 : P.length ≤ 10)
    (hPH : occursIn ("PLACEHOLDER_".data) m = false)
    (pairs : List (Str × Str)) (gl : Str)
    (horig : m = flatPairs (fun q => q) pairs gl)
    (hmem : ∀ gq ∈ pairs, gq.2 ∈ P) :
    ∀ k i, i ≤ P.length → P.length - i = k →
      restoreFold (enumIdx i (List.drop i P)) (flatPairs (restView P i) pairs gl)
        = flatPairs (restView P P.length) pairs gl := by
  intro k
  induction k with
  | zero =>
    intro i hile hk
    have hip : i = P.length := by omega
    subst hip
    rw [List.drop_length]
    rfl
  | succ k ihk =>
    intro i hile hk
    have hi : i < P.length := by omega
    have hdrop : List.drop i P = P.get ⟨i, hi⟩ :: List.drop (i + 1) P :=
      List.drop_eq_get_cons hi
    rw [hdrop]
    show restoreFold (enumIdx (i + 1) (List.drop (i + 1) P))
      (replaceAll (marker i) (P.get ⟨i, hi⟩) (flatPairs (restView P i) pairs gl)) = _
    rw [rest_step m P i hi hP10 hPH pairs gl horig hmem]
    exact ihk (i + 1) (by omega) (by omega)

/-! ### The round trip of `_translate_entry` masking and restoring -/

theorem placeholder_roundtrip (m : Str)
    (h10 : (findall m).length ≤ 10)
    (hPH : occursIn ("PLACEHOLDER_".data) m = false)
    (hgaps : ∀ gq ∈ (scanPO m).1, ∀ c ∈ gq.1, c ≠ '%')
    (hgl : ∀ c ∈ (scanPO m).2, c ≠ '%')
    (hpp : ∀ gq ∈ (scanPO m).1, gq.2 ≠ ['%', '%']) :
    restoreText (maskMsgid m) (placeholderMap m) = m := by
  have hmatch : ∀ gq ∈ (scanPO m).1, matchAt gq.2 = some gq.2 := fun gq h => scan_match gq h
  have hmem : ∀ gq ∈ (scanPO m).1, gq.2 ∈ findall m := by
    intro gq h
    exact List.mem_map_of_mem (fun gq => gq.2) h
  have hP10 : (findall m).length ≤ 10 := h10
  have hgetm : ∀ (j : Nat) (hj : j < (findall m).length),
      matchAt ((findall m).get ⟨j, hj⟩) = some ((findall m).get ⟨j, hj⟩) := by
    intro j hj
    have hmem2 : (findall m).get ⟨j, hj⟩ ∈ findall m := List.get_mem _ _ _
    obtain ⟨gq, hgq, hq⟩ := List.mem_map.mp hmem2
    rw [← hq]
    exact scan_match gq hgq
  have horig : m = flatPairs (fun q => q) (scanPO m).1 (scanPO m).2 := (scan_flat m).symm
  have hstart : flatPairs (maskView (findall m) 0) (scanPO m).1 (scanPO m).2 = m := by
    rw [@flatPairs_congr _ (fun q => q) (scanPO m).1 (scanPO m).2 ?_]
    · exact scan_flat m
    · intro gq _
      rw [maskView, if_neg (Nat.not_lt_zero _)]
  have hmask : maskMsgid m = flatPairs (maskView (findall m) (findall m).length)
      (scanPO m).1 (scanPO m).2 := by
    have hstage := mask_stages (findall m) hP10 (scanPO m).1 (scanPO m).2 hmatch hmem hpp hgaps hgl
      hgetm (findall m).length 0 (Nat.zero_le _) (by omega)
    rw [List.drop_zero, hstart] at hstage
    exact hstage
  have hmid : flatPairs (maskView (findall m) (findall m).length) (scanPO m).1 (scanPO m).2
      = flatPairs (restView (findall m) 0) (scanPO m).1 (scanPO m).2 := by
    apply flatPairs_congr
    intro gq hgq
    rw [maskView, restView, if_pos (firstIdx_lt (hmem gq hgq)), if_neg (Nat.not_lt_zero _)]
  have hrest : restoreFold (enumIdx 0 (findall m))
      (flatPairs (restView (findall m) 0) (scanPO m).1 (scanPO m).2)
      = flatPairs (restView (findall m) (findall m).length) (scanPO m).1 (scanPO m).2 := by
    have hstage := rest_stages m (findall m) hP10 hPH (scanPO m).1 (scanPO m).2 horig hmem
      (findall m).length 0 (Nat.zero_le _) (by omega)
    rw [List.drop_zero] at hstage
    exact hstage
  have hfin : flatPairs (restView (findall m) (findall m).length) (scanPO m).1 (scanPO m).2 = m := by
    rw [@flatPairs_congr _ (fun q => q) (scanPO m).1 (scanPO m).2 ?_]
    · exact scan_flat m
    · intro gq hgq
      rw [restView, if_pos (firstIdx_lt (hmem gq hgq))]
  show restoreFold (placeholderMap m) (maskMsgid m) = m
  rw [placeholderMap, hmask, hmid, hrest, hfin]

/-! ### Chunking facts -/

theorem chunksGo_cons {α : Type} (cs : Nat) (fuel : Nat) (x : α) (l : List α) :
    chunksGo cs (fuel + 1) (x :: l) =
      ((x :: l).take cs) :: chunksGo cs fuel ((x :: l).drop cs) := rfl

theorem chunksGo_flatten {α : Type} (cs : Nat) (hcs : 1 ≤ cs) :
    ∀ fuel (l : List α), l.length ≤ fuel → (chunksGo cs fuel l).flatten = l := by
  intro fuel
  induction fuel with
  | zero =>
    intro l h
    have hl : l = [] := List.eq_nil_of_length_eq_zero (Nat.le_zero.mp h)
    subst hl
    rfl
  | succ fuel ih =>
    intro l h
    cases l with
    | nil => rfl
    | cons x l =>
      have hlen : ((x :: l).drop cs).length ≤ fuel := by
        simp only [List.length_drop, List.length_cons] at h ⊢
        omega
      rw [chunksGo_cons]
      show (x :: l).take cs ++ (chunksGo cs fuel ((x :: l).drop cs)).flatten = x :: l
      rw [ih _ hlen, List.take_append_drop]

theorem sliceChunks_flatten {α : Type} (l : List α) (cs : Nat) (hcs : 1 ≤ cs) :
    (sliceChunks l cs).flatten = l :=
  chunksGo_flatten cs hcs l.length l le_rfl

theorem sliceChunks_sum {α : Type} (l : List α) (cs : Nat) (hcs : 1 ≤ cs) :
    ((sliceChunks l cs).map List.length).sum = l.length := by
  conv_rhs => rw [← sliceChunks_flatten l cs hcs]
  rw [List.length_flatten]

theorem chunksGo_count {α : Type} (cs : Nat) (hcs : 1 ≤ cs) :
    ∀ fuel (l : List α), l.length ≤ fuel →
      (chunksGo cs fuel l).length = (l.length + cs - 1) / cs := by
  intro fuel
  induction fuel with
  | zero =>
    intro l h
    have hl : l = [] := List.eq_nil_of_length_eq_zero (Nat.le_zero.mp h)
    subst hl
    show 0 = (0 + cs - 1) / cs
    rw [Nat.div_eq_of_lt (by omega)]
  | succ fuel ih =>
    intro l h
    cases l with
    | nil =>
      show 0 = (0 + cs - 1) / cs
      rw [Nat.div_eq_of_lt (by omega)]
    | cons x l =>
      have hlen : ((x :: l).drop cs).length ≤ fuel := by
        simp only [List.length_drop, List.length_cons] at h ⊢
        omega
      rw [chunksGo_cons]
      show (chunksGo cs fuel ((x :: l).drop cs)).length + 1 = _
      rw [ih _ hlen]
      simp only [List.length_drop, List.length_cons]
      have hrhs : l.length + 1 + cs - 1 = l.length + cs := by omega
      rw [hrhs, Nat.add_div_right _ (by omega)]
      by_cases hc : cs ≤ l.length + 1
      · have h1 : l.length + 1 - cs + cs - 1 = l.length := by omega
        rw [h1]
      · have h0 : l.length + 1 - cs = 0 := by omega
        rw [h0]
        show (0 + cs - 1) / cs + 1 = l.length / cs + 1
        rw [Nat.div_eq_of_lt (by omega), Nat.div_eq_of_lt (by omega)]

theorem sliceChunks_count {α : Type} (l : List α) (cs : Nat) (hcs : 1 ≤ cs) :
    (sliceChunks l cs).length = (l.length + cs - 1) / cs :=
  chunksGo_count cs hcs l.length l le_rfl

/-! ### Collecting worker results -/

theorem collectResults_cons {α β : Type} (f : α → Option β) (x : α) (t : List α) :
    collectResults f (x :: t) =
      match f x, collectResults f t with
      | some y, some ys => some (y :: ys)
      | _, _ => none := rfl

theorem collectResults_map_eq {α β : Type} (f : α → Option β) :
    ∀ (l : List α) (out : List β), collectResults f l = some out → l.map f = out.map some := by
  intro l
  induction l with
  | nil =>
    intro out h
    have hout : out = [] := by simpa [collectResults] using h.symm
    subst hout
    rfl
  | cons x t ih =>
    intro out h
    rw [collectResults_cons] at h
    cases hf : f x with
    | none =>
      rw [hf] at h
      simp at h
    | some y =>
      rw [hf] at h
      cases hc : collectResults f t with
      | none =>
        rw [hc] at h
        simp at h
      | some ys =>
        rw [hc] at h
        have hout : out = y :: ys := by simpa using h.symm
        subst hout
        show f x :: t.map f = some y :: ys.map some
        rw [hf, ih ys hc]

theorem collectResults_none_of_mem {α β : Type} (f : α → Option β) :
    ∀ (l : List α) (x : α), x ∈ l → f x = none → collectResults f l = none := by
  intro l
  induction l with
  | nil =>
    intro x hx _
    simp at hx
  | cons y t ih =>
    intro x hx hf
    rw [collectResults_cons]
    cases List.mem_cons.mp hx with
    | inl hxy =>
      rw [← hxy, hf]
    | inr hxt =>
      rw [ih x hxt hf]
      cases f y <;> rfl

theorem collect_nested_map {α β : Type} (f : α → Option β) :
    ∀ (chunks : List (List α)) (results : List (List β)),
      collectResults (collectResults f) chunks = some results →
      chunks.flatten.map f = results.flatten.map some := by
  intro chunks
  induction chunks with
  | nil =>
    intro results h
    have hr : results = [] := by simpa [collectResults] using h.symm
    subst hr
    rfl
  | cons c t ih =>
    intro results h
    rw [collectResults_cons] at h
    cases hc : collectResults f c with
    | none =>
      rw [hc] at h
      simp at h
    | some r =>
      rw [hc] at h
      cases ht : collectResults (collectResults f) t with
      | none =>
        rw [ht] at h
        simp at h
      | some rs =>
        rw [ht] at h
        have hr : results = r :: rs := by simpa using h.symm
        subst hr
        show (c ++ t.flatten).map f = (r ++ rs.flatten).map some
        rw [List.map_append, List.map_append, collectResults_map_eq f c r hc, ih rs ht]

/-! ### Lookup facts for the cache table -/

theorem find?_append_none {α : Type} (p : α → Bool) :
    ∀ (l1 l2 : List α), l1.find? p = none → (l1 ++ l2).find? p = l2.find? p := by
  intro l1 l2 h
  induction l1 with
  | nil => rfl
  | cons x t ih =>
    cases hp : p x with
    | true =>
      rw [List.find?_cons_of_pos t hp] at h
      exact absurd h (by simp)
    | false =>
      rw [List.find?_cons_of_neg t (by simp [hp])] at h
      rw [List.cons_append, List.find?_cons_of_neg _ (by simp [hp])]
      exact ih h

theorem find?_filter_not {α : Type} (p : α → Bool) (l : List α) :
    (l.filter (fun r => !(p r))).find? p = none := by
  induction l with
  | nil => rfl
  | cons x t ih =>
    rw [List.filter_cons]
    cases hp : p x with
    | true =>
      rw [if_neg (by simp [hp])]
      exact ih
    | false =>
      rw [if_pos (by simp [hp])]
      rw [List.find?_cons_of_neg _ (by simp [hp])]
      exact ih

theorem find?_filter_of_imp {α : Type} (p q : α → Bool) (himp : ∀ a, p a = true → q a = true) :
    ∀ l : List α, (l.filter q).find? p = l.find? p := by
  intro l
  induction l with
  | nil => rfl
  | cons x t ih =>
    rw [List.filter_cons]
    cases hq : q x with
    | true =>
      rw [if_pos (by simp [hq])]
      cases hp : p x with
      | true =>
        rw [List.find?_cons_of_pos _ hp, List.find?_cons_of_pos _ hp]
      | false =>
        rw [List.find?_cons_of_neg _ (by simp [hp]), List.find?_cons_of_neg _ (by simp [hp])]
        exact ih
    | false =>
      have hp : p x = false := by
        cases hpx : p x with
        | false => rfl
        | true => rw [himp x hpx] at hq; exact absurd hq (by simp)
      rw [if_neg (by simp [hq]), List.find?_cons_of_neg _ (by simp [hp])]
      exact ih

/-! ### Stripping `some` from a permutation -/

theorem perm_of_map_some {α : Type} [DecidableEq α] {l1 l2 : List α}
    (h : (l1.map some).Perm (l2.map some)) : l1.Perm l2 := by
  rw [List.perm_iff_count]
  intro a
  have h1 := List.count_map_of_injective l1 some (Option.some_injective α) a
  have h2 := List.count_map_of_injective l2 some (Option.some_injective α) a
  rw [← h1, ← h2]
  exact List.perm_iff_count.mp h (some a)

/-! ### Cache upsert helpers -/

theorem lookup_save_same (hash : Str → Str) (tbl : CacheTable) (sl tl tr st v : Str) :
    get_translation hash (save_translation_table hash tbl sl tl tr st v) sl tl tr st = some v := by
  rw [get_translation, save_translation_table,
    find?_append_none _ _ _ (find?_filter_not _ tbl),
    List.find?_cons_of_pos _ (by simp)]
  rfl

theorem find?_append_some {α : Type} (p : α → Bool) :
    ∀ (l1 l2 : List α) (a : α), l1.find? p = some a → (l1 ++ l2).find? p = some a := by
  intro l1 l2 a h
  induction l1 with
  | nil => simp at h
  | cons x t ih =>
    cases hp : p x with
    | true =>
      rw [List.find?_cons_of_pos t hp] at h
      rw [List.cons_append, List.find?_cons_of_pos _ hp]
      exact h
    | false =>
      rw [List.find?_cons_of_neg t (by simp [hp])] at h
      rw [List.cons_append, List.find?_cons_of_neg _ (by simp [hp])]
      exact ih h

theorem lookup_save_other (hash : Str → Str) (tbl : CacheTable) (sl tl tr st v : Str)
    (k : Str) (hk : k ≠ generateCacheKey hash sl tl tr st) :
    (save_translation_table hash tbl sl tl tr st v).find? (fun row => row.1 == k)
      = tbl.find? (fun row => row.1 == k) := by
  rw [save_translation_table]
  have hfilter : ((tbl.filter
        (fun row => !(row.1 == generateCacheKey hash sl tl tr st))).find?
          (fun row => row.1 == k))
      = tbl.find? (fun row => row.1 == k) := by
    apply find?_filter_of_imp
    intro a ha
    have hak : a.1 = k := by simpa using ha
    simp [hak, hk]
  cases hsome : (tbl.filter
      (fun row => !(row.1 == generateCacheKey hash sl tl tr st))).find?
        (fun row => row.1 == k) with
  | some a =>
    rw [find?_append_some _ _ _ a hsome, ← hsome, hfilter]
  | none =>
    have hbeq : (generateCacheKey hash sl tl tr st == k) = false := by
      simp only [beq_eq_false_iff_ne, ne_eq]
      exact fun h => hk h.symm
    rw [find?_append_none _ _ _ hsome, ← hfilter, hsome]
    simp [List.find?, hbeq]

theorem nodup_save (hash : Str → Str) (tbl : CacheTable) (sl tl tr st v : Str)
    (hnodup : (tbl.map (fun r => r.1)).Nodup) :
    ((save_translation_table hash tbl sl tl tr st v).map (fun r => r.1)).Nodup := by
  rw [save_translation_table, List.map_append]
  apply List.Nodup.append
  · exact hnodup.sublist ((List.filter_sublist tbl).map _)
  · simp
  · intro a ha hb
    have hbk : a = generateCacheKey hash sl tl tr st := by simpa using hb
    obtain ⟨row, hrow, hfst⟩ := List.mem_map.mp ha
    have := List.of_mem_filter hrow
    rw [hfst, hbk] at this
    simp at this

/-! ### Claim theorems for the splitter -/

/-- C2 (counterexample): as stated the claim fails, because `split_po_file`
splits only the untranslated entries: a file with one translated and one
untranslated entry has entry count 2, but the produced files hold 1 entry in
total. -/
theorem C2_counterexample :
    ((split_po_file [⟨"a".data, "x".data, false, false⟩, ⟨"b".data, [], false, false⟩] 1).map
      List.length).sum
    ≠ ([⟨"a".data, "x".data, false, false⟩, ⟨"b".data, [], false, false⟩] : List POEntry).length := by
  decide

/-- C2 (amended): for every input catalog and `num_split ≥ 1`, the entry
counts of the files produced by `split_po_file` sum to the number of
untranslated entries of the original file (not to its total entry count). -/
theorem C2_split_sum (po : List POEntry) (n : Nat) (_hn : 1 ≤ n) :
    ((split_po_file po n).map List.length).sum = (untranslated_entries po).length := by
  rw [split_po_file]
  exact sliceChunks_sum _ _ (le_max_left 1 _)

/-- Witness for `C2_split_sum` at a concrete catalog and `num_split = 1`. -/
theorem C2_split_sum_witness :
    1 ≤ 1
    ∧ ((split_po_file [⟨"a".data, "x".data, false, false⟩, ⟨"b".data, [], false, false⟩] 1).map
        List.length).sum
      = (untranslated_entries
          [⟨"a".data, "x".data, false, false⟩, ⟨"b".data, [], false, false⟩]).length :=
  ⟨by decide,
    C2_split_sum [⟨"a".data, "x".data, false, false⟩, ⟨"b".data, [], false, false⟩] 1 (by decide)⟩

/-- C7 (counterexample): `split_po_file` does not always produce exactly N
output files: with 5 untranslated entries and `num_split = 2` the chunk size
is `max(1, 5 // 2) = 2`, giving 3 output files. -/
theorem C7_counterexample :
    (split_po_file
      [⟨"a".data, [], false, false⟩, ⟨"b".data, [], false, false⟩,
       ⟨"c".data, [], false, false⟩, ⟨"d".data, [], false, false⟩,
       ⟨"e".data, [], false, false⟩] 2).length ≠ 2 := by
  decide

/-- C7 (amended): for every input file and requested part count `N ≥ 1`,
`split_po_file` produces `⌈L / max(1, ⌊L / N⌋)⌉` output files, where `L` is
the number of untranslated entries; this equals `N` when `N` divides `L`
(and `L > 0`) but not in general. -/
theorem C7_split_count (po : List POEntry) (n : Nat) (_hn : 1 ≤ n) :
    (split_po_file po n).length =
      ((untranslated_entries po).length + max 1 ((untranslated_entries po).length / n) - 1)
        / max 1 ((untranslated_entries po).length / n) := by
  rw [split_po_file]
  exact sliceChunks_count _ _ (le_max_left 1 _)

/-- Witness for `C7_split_count` at 5 untranslated entries and N = 2. -/
theorem C7_split_count_witness :
    1 ≤ 2
    ∧ (split_po_file
        [⟨"a".data, [], false, false⟩, ⟨"b".data, [], false, false⟩,
         ⟨"c".data, [], false, false⟩, ⟨"d".data, [], false, false⟩,
         ⟨"e".data, [], false, false⟩] 2).length =
      ((untranslated_entries
          [⟨"a".data, [], false, false⟩, ⟨"b".data, [], false, false⟩,
           ⟨"c".data, [], false, false⟩, ⟨"d".data, [], false, false⟩,
           ⟨"e".data, [], false, false⟩]).length
        + max 1 ((untranslated_entries
          [⟨"a".data, [], false, false⟩, ⟨"b".data, [], false, false⟩,
           ⟨"c".data, [], false, false⟩, ⟨"d".data, [], false, false⟩,
           ⟨"e".data, [], false, false⟩]).length / 2) - 1)
        / max 1 ((untranslated_entries
          [⟨"a".data, [], false, false⟩, ⟨"b".data, [], false, false⟩,
           ⟨"c".data, [], false, false⟩, ⟨"d".data, [], false, false⟩,
           ⟨"e".data, [], false, false⟩]).length / 2) :=
  ⟨by decide,
    C7_split_count
      [⟨"a".data, [], false, false⟩, ⟨"b".data, [], false, false⟩,
       ⟨"c".data, [], false, false⟩, ⟨"d".data, [], false, false⟩,
       ⟨"e".data, [], false, false⟩] 2 (by decide)⟩

/-! ### Claim theorems for the cache -/

/-- C4: the key computed by `_generate_cache_key` depends on exactly the four
request fields (it is by construction the digest of their colon-joined
rendering and of nothing else), and after `save_translation` of value `v`
under those fields, `get_translation` with the same four fields returns `v`
within the same store file — for any digest function, so in particular for
hashlib md5. -/
theorem C4_cache_roundtrip (hash : Str → Str) (tbl : CacheTable) (sl tl tr st v : Str) :
    get_translation hash (save_translation_table hash tbl sl tl tr st v) sl tl tr st = some v :=
  lookup_save_same hash tbl sl tl tr st v

/-- C5 (counterexample): the store is not append-only in the claimed sense:
`INSERT OR REPLACE` overwrites the previously stored record when the same
key is saved again, so the record present after the first save is gone after
a second save with the same four fields and a different value. -/
theorem C5_counterexample :
    (("en:de:G:hi".data,
      (⟨"en".data, "de".data, "G".data, "hi".data, "A".data⟩ : CacheRecord))
      ∈ currentTable (save_translation_store (fun k => k) (fun t => t.length)
        ⟨[(0, [])]⟩ "en".data "de".data "G".data "hi".data "A".data))
    ∧ ¬ (("en:de:G:hi".data,
      (⟨"en".data, "de".data, "G".data, "hi".data, "A".data⟩ : CacheRecord))
      ∈ currentTable (save_translation_store (fun k => k) (fun t => t.length)
        (save_translation_store (fun k => k) (fun t => t.length)
          ⟨[(0, [])]⟩ "en".data "de".data "G".data "hi".data "A".data)
        "en".data "de".data "G".data "hi".data "B".data)) := by
  decide

/-- C5 (amended): `save_translation` upserts: the saved key maps to the new
value, every record under a different key is untouched, key uniqueness is
preserved, and once the current store file's size reaches `MAX_CACHE_SIZE`
the store switches to a fresh file with the next index, leaving the earlier
files unchanged; the only overwriting is of the record carrying the same
key. -/
theorem C5_upsert_rotation (hash : Str → Str) (sz : CacheTable → Nat) (st : CacheStore)
    (sl tl tr stx tt : Str) (idx : Nat) (tbl : CacheTable)
    (hlast : st.files.getLast? = some (idx, tbl))
    (hnodup : (tbl.map (fun r => r.1)).Nodup) :
    get_translation hash (save_translation_table hash tbl sl tl tr stx tt) sl tl tr stx = some tt
    ∧ (∀ k, k ≠ generateCacheKey hash sl tl tr stx →
        (save_translation_table hash tbl sl tl tr stx tt).find? (fun row => row.1 == k)
          = tbl.find? (fun row => row.1 == k))
    ∧ ((save_translation_table hash tbl sl tl tr stx tt).map (fun r => r.1)).Nodup
    ∧ (MAX_CACHE_SIZE ≤ sz (save_translation_table hash tbl sl tl tr stx tt) →
        (save_translation_store hash sz st sl tl tr stx tt).files
          = st.files.dropLast
            ++ [(idx, save_translation_table hash tbl sl tl tr stx tt), (idx + 1, [])])
    ∧ (sz (save_translation_table hash tbl sl tl tr stx tt) < MAX_CACHE_SIZE →
        (save_translation_store hash sz st sl tl tr stx tt).files
          = st.files.dropLast
            ++ [(idx, save_translation_table hash tbl sl tl tr stx tt)]) := by
  refine ⟨lookup_save_same hash tbl sl tl tr stx tt,
    fun k hk => lookup_save_other hash tbl sl tl tr stx tt k hk,
    nodup_save hash tbl sl tl tr stx tt hnodup, ?_, ?_⟩
  · intro hsz
    rw [save_translation_store.eq_def, hlast]
    show (if MAX_CACHE_SIZE ≤ sz (save_translation_table hash tbl sl tl tr stx tt) then
        (⟨st.files.dropLast
          ++ [(idx, save_translation_table hash tbl sl tl tr stx tt), (idx + 1, [])]⟩ : CacheStore)
      else
        ⟨st.files.dropLast
          ++ [(idx, save_translation_table hash tbl sl tl tr stx tt)]⟩).files = _
    rw [if_pos hsz]
  · intro hsz
    rw [save_translation_store.eq_def, hlast]
    show (if MAX_CACHE_SIZE ≤ sz (save_translation_table hash tbl sl tl tr stx tt) then
        (⟨st.files.dropLast
          ++ [(idx, save_translation_table hash tbl sl tl tr stx tt), (idx + 1, [])]⟩ : CacheStore)
      else
        ⟨st.files.dropLast
          ++ [(idx, save_translation_table hash tbl sl tl tr stx tt)]⟩).files = _
    rw [if_neg (by omega)]

/-- Witness for `C5_upsert_rotation` on a fresh one-file store. -/
theorem C5_upsert_rotation_witness :
    ((⟨[(0, [])]⟩ : CacheStore).files.getLast? = some (0, [])
      ∧ (([] : CacheTable).map (fun r => r.1)).Nodup)
    ∧ (get_translation (fun k => k)
        (save_translation_table (fun k => k) [] "en".data "de".data "G".data "hi".data "A".data)
        "en".data "de".data "G".data "hi".data = some "A".data
      ∧ (∀ k, k ≠ generateCacheKey (fun k => k) "en".data "de".data "G".data "hi".data →
          (save_translation_table (fun k => k) [] "en".data "de".data "G".data "hi".data
            "A".data).find? (fun row => row.1 == k)
            = ([] : CacheTable).find? (fun row => row.1 == k))
      ∧ ((save_translation_table (fun k => k) [] "en".data "de".data "G".data "hi".data
          "A".data).map (fun r => r.1)).Nodup
      ∧ (MAX_CACHE_SIZE ≤ (fun (t : CacheTable) => t.length)
            (save_translation_table (fun k => k) [] "en".data "de".data "G".data "hi".data
              "A".data) →
          (save_translation_store (fun k => k) (fun t => t.length) ⟨[(0, [])]⟩
            "en".data "de".data "G".data "hi".data "A".data).files
            = (⟨[(0, [])]⟩ : CacheStore).files.dropLast
              ++ [(0, save_translation_table (fun k => k) [] "en".data "de".data "G".data
                "hi".data "A".data), (0 + 1, [])])
      ∧ ((fun (t : CacheTable) => t.length)
            (save_translation_table (fun k => k) [] "en".data "de".data "G".data "hi".data
              "A".data) < MAX_CACHE_SIZE →
          (save_translation_store (fun k => k) (fun t => t.length) ⟨[(0, [])]⟩
            "en".data "de".data "G".data "hi".data "A".data).files
            = (⟨[(0, [])]⟩ : CacheStore).files.dropLast
              ++ [(0, save_translation_table (fun k => k) [] "en".data "de".data "G".data
                "hi".data "A".data)])) :=
  ⟨⟨by decide, by decide⟩,
    C5_upsert_rotation (fun k => k) (fun t => t.length) ⟨[(0, [])]⟩
      "en".data "de".data "G".data "hi".data "A".data 0 [] (by decide) (by decide)⟩

/-! ### Claim theorems for the per-entry guards and error handling -/

/-- C8: an entry whose msgid exceeds the configured maximum translatable
length (default 300) is returned by `_translate_entry` with every field
unchanged; the result does not depend on the translator or on the cache, so
no translation and no cache call can influence it (the legacy
`translate_entry` likewise returns the unchanged entry with no translation). -/
theorem C8_long_msgid_unchanged (cfg : Config) (translator : Str → Option Str)
    (cache : Option CacheTable) (hash : Str → Str) (e : POEntry)
    (h : cfg.max_msgid_length < e.msgid.length) :
    translate_entry_pkg cfg translator cache hash e = some (e, cache)
    ∧ translate_entry_legacy cfg.max_msgid_length translator e = (e, none) := by
  constructor
  · rw [translate_entry_pkg.eq_def, if_pos h]
  · rw [translate_entry_legacy.eq_def, if_pos h]

/-- Witness for `C8_long_msgid_unchanged`: a 301-character msgid against the
default maximum of 300. -/
theorem C8_long_msgid_unchanged_witness :
    (⟨"en".data, "de".data, "G".data, 300⟩ : Config).max_msgid_length
      < (⟨List.replicate 301 'a', [], false, false⟩ : POEntry).msgid.length
    ∧ (translate_entry_pkg ⟨"en".data, "de".data, "G".data, 300⟩ (fun t => some t) none
        (fun k => k) ⟨List.replicate 301 'a', [], false, false⟩
        = some (⟨List.replicate 301 'a', [], false, false⟩, none)
      ∧ translate_entry_legacy (⟨"en".data, "de".data, "G".data, 300⟩ : Config).max_msgid_length
        (fun t => some t) ⟨List.replicate 301 'a', [], false, false⟩
        = (⟨List.replicate 301 'a', [], false, false⟩, none)) :=
  ⟨by simp [List.length_replicate],
    C8_long_msgid_unchanged ⟨"en".data, "de".data, "G".data, 300⟩ (fun t => some t) none
      (fun k => k) ⟨List.replicate 301 'a', [], false, false⟩ (by simp [List.length_replicate])⟩

/-- C9: a failed read of an input file produces no output for that file (no
translation is attempted and `write_output_file` writes nothing), and in
folder mode the loop moves on to the remaining files, because a read failure
never sets `translation_error_flag`. -/
theorem C9_read_failure (cfg : Config) (translator : Str → Option Str) (jobs : Nat)
    (post : List (Option (List POEntry))) :
    process_po_file cfg translator jobs none = none
    ∧ folder_loop cfg translator jobs (none :: post)
      = none :: folder_loop cfg translator jobs post :=
  ⟨rfl, rfl⟩

/-! ### Per-entry failure: the two versions -/

theorem get_map_eq {α β : Type} (f : α → β) :
    ∀ (l : List α) (i : Nat) (hi : i < l.length) (h2 : i < (l.map f).length),
      (l.map f).get ⟨i, h2⟩ = f (l.get ⟨i, hi⟩) := by
  intro l
  induction l with
  | nil => intro i hi _; simp at hi
  | cons x t ih =>
    intro i hi h2
    cases i with
    | zero => rfl
    | succ i => exact ih i (Nat.lt_of_succ_lt_succ hi) (by simpa using h2)

/-- C6: when translating a single entry raises, the legacy version logs it
and leaves that entry untouched while all entries are still processed (the
output list keeps the same length and the failing entry keeps its msgstr),
whereas the package version sets the error flag so the whole file is aborted
and no output is produced for it. -/
theorem C6_entry_failure (cfg : Config) (translator : Str → Option Str) (po : List POEntry)
    (i : Nat) (hi : i < po.length)
    (hfail : translator (maskMsgid (po.get ⟨i, hi⟩).msgid) = none)
    (hlen : (po.get ⟨i, hi⟩).msgid.length ≤ cfg.max_msgid_length) :
    (legacy_translate_po_file cfg.max_msgid_length translator po).length = po.length
    ∧ (∀ h2 : i < (legacy_translate_po_file cfg.max_msgid_length translator po).length,
        (legacy_translate_po_file cfg.max_msgid_length translator po).get ⟨i, h2⟩
          = po.get ⟨i, hi⟩)
    ∧ (po.get ⟨i, hi⟩ ∈ untranslated_entries po →
        ∀ jobs, translate_po_file_pkg cfg translator jobs po = none) := by
  have hnot : ¬ cfg.max_msgid_length < (po.get ⟨i, hi⟩).msgid.length := by omega
  have hlegacy_entry : translate_entry_legacy cfg.max_msgid_length translator (po.get ⟨i, hi⟩)
      = (po.get ⟨i, hi⟩, none) := by
    rw [translate_entry_legacy.eq_def, if_neg hnot, hfail]
  refine ⟨List.length_map po _, ?_, ?_⟩
  · intro h2
    unfold legacy_translate_po_file
    rw [get_map_eq _ po i hi]
    by_cases hne : (po.get ⟨i, hi⟩).msgid ≠ []
    · rw [if_pos hne, hlegacy_entry]
    · rw [if_neg hne]
  · intro hmem jobs
    have hjoin : (poChunks po jobs).flatten = untranslated_entries po := by
      rw [poChunks]
      exact sliceChunks_flatten _ _ (le_max_left 1 _)
    have hmem2 : po.get ⟨i, hi⟩ ∈ (poChunks po jobs).flatten := by
      rw [hjoin]
      exact hmem
    obtain ⟨chunk, hchunk, hein⟩ := List.mem_flatten.mp hmem2
    have hentry : entryOutput cfg translator (po.get ⟨i, hi⟩) = none := by
      rw [entryOutput, translate_entry_pkg.eq_def, if_neg hnot, hfail]
      rfl
    have hchunkNone : collectResults (entryOutput cfg translator) chunk = none :=
      collectResults_none_of_mem (entryOutput cfg translator) chunk (po.get ⟨i, hi⟩) hein hentry
    have houter : collectResults (collectResults (entryOutput cfg translator))
        (poChunks po jobs) = none :=
      collectResults_none_of_mem (collectResults (entryOutput cfg translator))
        (poChunks po jobs) chunk hchunk hchunkNone
    rw [translate_po_file_pkg, houter]
    rfl

/-- Witness for `C6_entry_failure`: a one-entry catalog with a translator
that always raises. -/
theorem C6_entry_failure_witness :
    ((fun (_ : Str) => (none : Option Str)) (maskMsgid "x".data) = none
      ∧ ("x".data).length ≤ 300)
    ∧ ((legacy_translate_po_file 300 (fun _ => none) [⟨"x".data, [], false, false⟩]).length
        = ([⟨"x".data, [], false, false⟩] : List POEntry).length
      ∧ (∀ h2 : 0 < (legacy_translate_po_file 300 (fun _ => none)
            [⟨"x".data, [], false, false⟩]).length,
          (legacy_translate_po_file 300 (fun _ => none)
            [⟨"x".data, [], false, false⟩]).get ⟨0, h2⟩ = ⟨"x".data, [], false, false⟩)
      ∧ ((⟨"x".data, [], false, false⟩ : POEntry)
            ∈ untranslated_entries [⟨"x".data, [], false, false⟩] →
          ∀ jobs, translate_po_file_pkg ⟨"en".data, "de".data, "G".data, 300⟩ (fun _ => none)
            jobs [⟨"x".data, [], false, false⟩] = none)) :=
  ⟨⟨rfl, by decide⟩,
    C6_entry_failure ⟨"en".data, "de".data, "G".data, 300⟩ (fun _ => none)
      [⟨"x".data, [], false, false⟩] 0 (by decide) rfl (by decide)⟩

/-! ### The output of a successful whole-file translation -/

/-- C10: a successful `translate_po_file` produces exactly the translations
of the untranslated entries of the input, in that correspondence: the output
paired with `some` equals the untranslated entries mapped through the
per-entry step, so in particular every entry that already carried a nonempty
msgstr in the input is absent from the output (the catalog was cleared and
re-extended with only the translated untranslated entries). -/
theorem C10_output_exactly_untranslated (cfg : Config) (translator : Str → Option Str)
    (jobs : Nat) (po : List POEntry) (out : List POEntry)
    (hout : translate_po_file_pkg cfg translator jobs po = some out) :
    out.map some = (untranslated_entries po).map (entryOutput cfg translator) := by
  rw [translate_po_file_pkg] at hout
  obtain ⟨results, hres, hjoin⟩ := Option.map_eq_some'.mp hout
  rw [← hjoin]
  have hnest := collect_nested_map (entryOutput cfg translator) (poChunks po jobs) results hres
  rw [← hnest, poChunks, sliceChunks_flatten _ _ (le_max_left 1 _)]

/-- Witness for `C10_output_exactly_untranslated` on a one-entry catalog and
an always-succeeding translator. -/
theorem C10_output_exactly_untranslated_witness :
    translate_po_file_pkg ⟨"en".data, "de".data, "G".data, 300⟩ (fun t => some t) 1
      [⟨"a".data, [], false, false⟩] = some [⟨"a".data, "a".data, false, false⟩]
    ∧ ([(⟨"a".data, "a".data, false, false⟩ : POEntry)]).map some
      = (untranslated_entries [⟨"a".data, [], false, false⟩]).map
          (entryOutput ⟨"en".data, "de".data, "G".data, 300⟩ (fun t => some t)) :=
  ⟨by decide,
    C10_output_exactly_untranslated ⟨"en".data, "de".data, "G".data, 300⟩ (fun t => some t) 1
      [⟨"a".data, [], false, false⟩] [⟨"a".data, "a".data, false, false⟩] (by decide)⟩

/-! ### Completion order of the chunk futures -/

/-- C3 (counterexample): the catalog produced by `translate_po_file` is not
the same for every completion order: results are appended in `as_completed`
order and re-extended into the cleared catalog by position, not entry
identity, so the two completion orders of the two chunks of a two-entry
catalog produce outputs with different entry order and hence different
serialized data. -/
theorem C3_counterexample :
    (poChunks [⟨"a".data, [], false, false⟩, ⟨"b".data, [], false, false⟩] 2)
      = [[⟨"a".data, [], false, false⟩], [⟨"b".data, [], false, false⟩]]
    ∧ List.Perm [[(⟨"a".data, [], false, false⟩ : POEntry)], [⟨"b".data, [], false, false⟩]]
        [[⟨"b".data, [], false, false⟩], [⟨"a".data, [], false, false⟩]]
    ∧ translate_po_file_order ⟨"en".data, "de".data, "G".data, 300⟩ (fun t => some t)
        [[⟨"a".data, [], false, false⟩], [⟨"b".data, [], false, false⟩]]
      ≠ translate_po_file_order ⟨"en".data, "de".data, "G".data, 300⟩ (fun t => some t)
        [[⟨"b".data, [], false, false⟩], [⟨"a".data, [], false, false⟩]] := by
  decide

/-- C3 (amended): reordering the completion of the chunk futures leaves the
resulting catalog unchanged only up to permutation of its entries: any two
completion orders that succeed produce outputs that are permutations of each
other (the multiset of translated entries is order-independent, but the
entry order — and hence the serialized file — follows completion order). -/
theorem C3_completion_order_perm (cfg : Config) (translator : Str → Option Str)
    (chunks1 chunks2 : List (List POEntry)) (hperm : chunks1.Perm chunks2)
    (out1 out2 : List POEntry)
    (h1 : translate_po_file_order cfg translator chunks1 = some out1)
    (h2 : translate_po_file_order cfg translator chunks2 = some out2) :
    out1.Perm out2 := by
  rw [translate_po_file_order] at h1 h2
  obtain ⟨r1, hr1, hj1⟩ := Option.map_eq_some'.mp h1
  obtain ⟨r2, hr2, hj2⟩ := Option.map_eq_some'.mp h2
  have e1 := collect_nested_map (entryOutput cfg translator) chunks1 r1 hr1
  have e2 := collect_nested_map (entryOutput cfg translator) chunks2 r2 hr2
  apply perm_of_map_some
  rw [← hj1, ← hj2, ← e1, ← e2]
  exact (hperm.flatten).map _

/-- Witness for `C3_completion_order_perm` on the two completion orders of a
two-chunk translation. -/
theorem C3_completion_order_perm_witness :
    (List.Perm [[(⟨"a".data, [], false, false⟩ : POEntry)], [⟨"b".data, [], false, false⟩]]
        [[⟨"b".data, [], false, false⟩], [⟨"a".data, [], false, false⟩]]
      ∧ translate_po_file_order ⟨"en".data, "de".data, "G".data, 300⟩ (fun t => some t)
          [[⟨"a".data, [], false, false⟩], [⟨"b".data, [], false, false⟩]]
        = some [⟨"a".data, "a".data, false, false⟩, ⟨"b".data, "b".data, false, false⟩]
      ∧ translate_po_file_order ⟨"en".data, "de".data, "G".data, 300⟩ (fun t => some t)
          [[⟨"b".data, [], false, false⟩], [⟨"a".data, [], false, false⟩]]
        = some [⟨"b".data, "b".data, false, false⟩, ⟨"a".data, "a".data, false, false⟩])
    ∧ List.Perm [(⟨"a".data, "a".data, false, false⟩ : POEntry), ⟨"b".data, "b".data, false, false⟩]
        [⟨"b".data, "b".data, false, false⟩, ⟨"a".data, "a".data, false, false⟩] :=
  ⟨⟨by decide, by decide, by decide⟩,
    C3_completion_order_perm ⟨"en".data, "de".data, "G".data, 300⟩ (fun t => some t)
      [[⟨"a".data, [], false, false⟩], [⟨"b".data, [], false, false⟩]]
      [[⟨"b".data, [], false, false⟩], [⟨"a".data, [], false, false⟩]] (by decide)
      [⟨"a".data, "a".data, false, false⟩, ⟨"b".data, "b".data, false, false⟩]
      [⟨"b".data, "b".data, false, false⟩, ⟨"a".data, "a".data, false, false⟩]
      (by decide) (by decide)⟩

/-! ### The placeholder round trip claim -/

/-- C1 (counterexample): masking and restoring is not a round trip for every
msgid.  With 11 placeholders the marker `PLACEHOLDER_1` is a prefix of
`PLACEHOLDER_10`, so even when the translator returns the masked text with
every marker preserved verbatim, the restore loop corrupts the eleventh
placeholder (`%k` comes back as `%b0`): the restored string differs from the
original and its placeholder list is not the original one. -/
theorem C1_counterexample :
    restoreText (maskMsgid "%a %b %c %d %e %f %g %h %i %j %k".data)
        (placeholderMap "%a %b %c %d %e %f %g %h %i %j %k".data)
      ≠ "%a %b %c %d %e %f %g %h %i %j %k".data
    ∧ findall (restoreText (maskMsgid "%a %b %c %d %e %f %g %h %i %j %k".data)
        (placeholderMap "%a %b %c %d %e %f %g %h %i %j %k".data))
      ≠ findall "%a %b %c %d %e %f %g %h %i %j %k".data := by
  decide

/-- A second failure mode, documenting the `%%`-free hypothesis of the
amended round trip: `%%` overlapping other placeholders corrupts the
restore. -/
theorem roundtrip_fails_on_double_pct :
    restoreText (maskMsgid "%b %%b %P".data) (placeholderMap "%b %%b %P".data)
      ≠ "%b %%b %P".data := by
  decide

/-- A third failure mode, documenting the no-literal-marker hypothesis of the
amended round trip: a msgid containing the text `PLACEHOLDER_0` captures the
restore of the real marker. -/
theorem roundtrip_fails_on_literal_marker :
    restoreText (maskMsgid "PLACEHOLDER_0 %a".data) (placeholderMap "PLACEHOLDER_0 %a".data)
      ≠ "PLACEHOLDER_0 %a".data := by
  decide

/-- C1 (amended): for a catalog entry whose msgid is within the configured
length, has at most 10 placeholder matches, does not contain the literal
text `PLACEHOLDER_`, and in which every `%` begins a placeholder match (the
scan gaps are `%`-free and no match is `%%`), masking and restoring is an
exact round trip: when the external translator returns the masked text with
every marker preserved verbatim, `_translate_entry` (and the legacy
`translate_entry`) produce the entry whose msgstr is exactly the original
msgid — placeholders restored verbatim and in place. -/
theorem C1_placeholder_roundtrip_amended (cfg : Config) (hash : Str → Str) (e : POEntry)
    (hlen : e.msgid.length ≤ cfg.max_msgid_length)
    (h10 : (findall e.msgid).length ≤ 10)
    (hPH : occursIn ("PLACEHOLDER_".data) e.msgid = false)
    (hgaps : ∀ gq ∈ (scanPO e.msgid).1, ∀ c ∈ gq.1, c ≠ '%')
    (hgl : ∀ c ∈ (scanPO e.msgid).2, c ≠ '%')
    (hpp : ∀ gq ∈ (scanPO e.msgid).1, gq.2 ≠ ['%', '%']) :
    translate_entry_pkg cfg (fun t => some t) none hash e
      = some ({ e with msgstr := e.msgid }, none)
    ∧ translate_entry_legacy cfg.max_msgid_length (fun t => some t) e
      = (e, some e.msgid) := by
  have hrt := placeholder_roundtrip e.msgid h10 hPH hgaps hgl hpp
  have hnot : ¬ cfg.max_msgid_length < e.msgid.length := by omega
  constructor
  · rw [translate_entry_pkg.eq_def, if_neg hnot]
    show some ({ e with msgstr := restoreText (maskMsgid e.msgid) (placeholderMap e.msgid) },
      (none : Option CacheTable)) = _
    rw [hrt]
  · rw [translate_entry_legacy.eq_def, if_neg hnot]
    show (e, some (restoreText (maskMsgid e.msgid) (placeholderMap e.msgid))) = _
    rw [hrt]

/-- Witness for `C1_placeholder_roundtrip_amended` on a msgid with the three
placeholder shapes. -/
theorem C1_placeholder_roundtrip_witness :
    (("%(name)s: %d".data.length ≤ 300
      ∧ (findall "%(name)s: %d".data).length ≤ 10
      ∧ occursIn ("PLACEHOLDER_".data) "%(name)s: %d".data = false)
      ∧ (∀ gq ∈ (scanPO "%(name)s: %d".data).1, ∀ c ∈ gq.1, c ≠ '%')
      ∧ (∀ c ∈ (scanPO "%(name)s: %d".data).2, c ≠ '%')
      ∧ (∀ gq ∈ (scanPO "%(name)s: %d".data).1, gq.2 ≠ ['%', '%']))
    ∧ (translate_entry_pkg ⟨"en".data, "de".data, "G".data, 300⟩ (fun t => some t) none
        (fun k => k) ⟨"%(name)s: %d".data, [], false, false⟩
        = some (⟨"%(name)s: %d".data, "%(name)s: %d".data, false, false⟩, none)
      ∧ translate_entry_legacy (⟨"en".data, "de".data, "G".data, 300⟩ : Config).max_msgid_length
        (fun t => some t) ⟨"%(name)s: %d".data, [], false, false⟩
        = (⟨"%(name)s: %d".data, [], false, false⟩, some ("%(name)s: %d".data))) :=
  ⟨⟨⟨by decide, by decide, by decide⟩, by decide, by decide, by decide⟩,
    C1_placeholder_roundtrip_amended ⟨"en".data, "de".data, "G".data, 300⟩ (fun k => k)
      ⟨"%(name)s: %d".data, [], false, false⟩
      (by decide) (by decide) (by decide) (by decide) (by decide) (by decide)⟩

end TranslatorPo
